import Mathlib

/-!
Shallow embedding of `TreeNodeService` from
`src/projects/ngx-material-tree-extensions/src/lib/services/tree-node.service.ts`
(the service source is concatenated after the test suite in the `.spec.ts` file).

Modelling conventions:
* A JavaScript tree node object is modelled by the inductive `TreeNode`.  The
  `id` component stands for the object's heap address, so JavaScript reference
  equality (`===`, `Array.indexOf`, `Map` keys) is modelled by equality of ids.
  The optional `children` array of `ITreeNode` is `Option (List TreeNode)`
  (`none` models an absent/undefined `children` field).
* In-place mutation of an object's `children` array is modelled by rebuilding
  the root collection with `updateChildrenL`, which applies the mutation to the
  node(s) carrying the target id.  Under the well-formedness invariant `wf`
  (every id occurs at most once, i.e. every object occurs at most once in the
  structure) this is exactly the effect of the JavaScript mutation.
* `lodash.cloneDeep` allocates fresh objects; this is modelled by threading an
  allocation counter `fresh` and giving every copied node a fresh id.
* `Array.prototype.splice` and `Array.prototype.indexOf` are modelled by
  `jsSpliceInsert` and `jsIndexOf` with JavaScript's exact index semantics
  (`indexOf` yields `-1` on a miss; a negative splice start counts from the
  end of the array, clamped at `0`).
* The Angular `FlatTreeControl` expansion state (an external capability: it
  exposes `isExpanded` / `expand` / `collapse` / `dataNodes`) is modelled by
  `ExpState`, the set of currently expanded flat nodes, identified by the flat
  nodes' object identities (`fid`).
-/

/-- A nested tree node (`ITreeNode`): an identity (heap address), a payload
(the `name` field of the `Node` interface used by the test suite), and an
optional array of children. -/
inductive TreeNode : Type where
  | mk (id : Nat) (name : String) (children : Option (List TreeNode)) : TreeNode

/-- The object identity (heap address) of a node. -/
def TreeNode.id : TreeNode → Nat
  | .mk i _ _ => i

/-- The `name` payload of a node. -/
def TreeNode.name : TreeNode → String
  | .mk _ n _ => n

/-- The optional `children` array of a node. -/
def TreeNode.children : TreeNode → Option (List TreeNode)
  | .mk _ _ c => c

/-- The children of a node, reading an absent `children` field as `[]`. -/
def TreeNode.childrenList : TreeNode → List TreeNode
  | .mk _ _ none => []
  | .mk _ _ (some cs) => cs

mutual

/-- All nodes of the subtree rooted at `t`, in depth-first preorder. -/
def subnodesT : TreeNode → List TreeNode
  | .mk i nm none => [.mk i nm none]
  | .mk i nm (some cs) => .mk i nm (some cs) :: subnodesL cs

/-- All nodes of the forest `l`, in depth-first preorder. -/
def subnodesL : List TreeNode → List TreeNode
  | [] => []
  | t :: ts => subnodesT t ++ subnodesL ts

end

/-- The ids of all nodes of the subtree rooted at `t`, in preorder. -/
def idsT (t : TreeNode) : List Nat := (subnodesT t).map TreeNode.id

/-- The ids of all nodes of the forest `l`, in preorder. -/
def idsL (l : List TreeNode) : List Nat := (subnodesL l).map TreeNode.id

/-- Well-formedness of a root collection: every id (heap address) occurs at
most once, i.e. every object occurs at exactly one position of the structure.
This always holds for the actual JavaScript object graphs the service
maintains, as long as the same node object is not inserted twice. -/
@[reducible] def wf (data : List TreeNode) : Prop := (idsL data).Nodup

mutual

/-- Source `TreeNodeService._getParent(node, parentNode)`: scan `parentNode`'s
children for `node` (reference equality, modelled by the id `i`), else recurse
into each child; `none` models the `null` miss.  An absent `children` field
skips the scan, exactly like the falsy check in the source. -/
def _getParent (i : Nat) : TreeNode → Option TreeNode
  | .mk _ _ none => none
  | .mk j nm (some cs) => getParentScan i (.mk j nm (some cs)) cs

/-- The `for (let childNode of parentNode.children)` loop inside
`_getParent`: return `parentNode` when a direct child matches, otherwise the
first successful recursive search. -/
def getParentScan (i : Nat) (parentNode : TreeNode) : List TreeNode → Option TreeNode
  | [] => none
  | c :: cs =>
    if c.id = i then some parentNode
    else match _getParent i c with
      | some p => some p
      | none => getParentScan i parentNode cs

end

/-- The `for (let rootNode of this._data)` loop of
`TreeNodeService.getParent`: try `_getParent` on each root in order. -/
def getParentLoop (data : List TreeNode) (i : Nat) : Option TreeNode :=
  match data with
  | [] => none
  | r :: rs =>
    match _getParent i r with
    | some p => some p
    | none => getParentLoop rs i

/-- Source `TreeNodeService.getParent(node)`: depth-first search for the node
whose children contain `node` by reference equality; `none` models `null`. -/
def getParent (data : List TreeNode) (node : TreeNode) : Option TreeNode :=
  getParentLoop data node.id

mutual

/-- Apply the in-place mutation `f` to the `children` array of the node with
id `i` (the JavaScript heap write `nodeWithIdI.children = f(children)`,
creating the array when the field is absent, as `insertChild` does).  Nodes
with other ids are rebuilt unchanged. -/
def updateChildrenT (i : Nat) (f : List TreeNode → List TreeNode) : TreeNode → TreeNode
  | .mk j nm none => if j = i then .mk j nm (some (f [])) else .mk j nm none
  | .mk j nm (some cs) =>
      if j = i then .mk j nm (some (f cs))
      else .mk j nm (some (updateChildrenL i f cs))

/-- `updateChildrenT` applied across a forest. -/
def updateChildrenL (i : Nat) (f : List TreeNode → List TreeNode) : List TreeNode → List TreeNode
  | [] => []
  | c :: rest => updateChildrenT i f c :: updateChildrenL i f rest

end

/-- Source `TreeNodeService.insertChild(parentNode, node)`: create the
`children` array if absent, then push `node` onto it.  The mutation is a heap
write to the object `parentNode`; on the tree it takes effect at the node with
`parentNode`'s identity (a no-op on the tree when `parentNode` is not part of
it). -/
def insertChild (data : List TreeNode) (parentNode node : TreeNode) : List TreeNode :=
  updateChildrenL parentNode.id (fun cs => cs ++ [node]) data

/-- JavaScript `Array.prototype.indexOf` by reference equality (id): the index
of the first occurrence, or `-1`. -/
def jsIndexOf (l : List TreeNode) (i : Nat) : Int :=
  match l.findIdx? (fun c => c.id == i) with
  | some k => (k : Int)
  | none => -1

/-- JavaScript `arr.splice(start, 0, node)`: insert `node` at `start`, where a
negative `start` counts from the end of the array (clamped at `0`), and a
`start` beyond the length appends. -/
def jsSpliceInsert (l : List TreeNode) (start : Int) (node : TreeNode) : List TreeNode :=
  let s : Nat := if start < 0 then ((l.length : Int) + start).toNat else min start.toNat l.length
  l.take s ++ node :: l.drop s

/-- Source `TreeNodeService._insertSibling(siblingNode, node, index)`: locate
`siblingNode`'s parent; splice `node` into the parent's children (or into the
root collection when there is no parent) at `indexOf(siblingNode) + index`. -/
def _insertSibling (data : List TreeNode) (siblingNode node : TreeNode) (index : Nat) : List TreeNode :=
  match getParent data siblingNode with
  | some parentNode =>
    match parentNode.children with
    | some _ =>
        updateChildrenL parentNode.id
          (fun cs => jsSpliceInsert cs (jsIndexOf cs siblingNode.id + (index : Int)) node) data
    | none => jsSpliceInsert data (jsIndexOf data siblingNode.id + (index : Int)) node
  | none => jsSpliceInsert data (jsIndexOf data siblingNode.id + (index : Int)) node

/-- Source `TreeNodeService.insertBefore(siblingNode, node)`. -/
def insertBefore (data : List TreeNode) (siblingNode node : TreeNode) : List TreeNode :=
  _insertSibling data siblingNode node 0

/-- Source `TreeNodeService.insertAfter(siblingNode, node)`. -/
def insertAfter (data : List TreeNode) (siblingNode node : TreeNode) : List TreeNode :=
  _insertSibling data siblingNode node 1

/-- The `nodes.splice(nodes.indexOf(node), 0)`... removal of `_delete`:
`indexOf` locates the first element reference-equal to `node` and
`splice(index, 1)` removes it, i.e. the first element with the given id is
removed and everything else is kept. -/
def removeFirstById : List TreeNode → Nat → List TreeNode
  | [], _ => []
  | c :: rest, i => if c.id = i then rest else c :: removeFirstById rest i

mutual

/-- Source `TreeNodeService._delete(nodes, node)`: if `node` occurs in
`nodes` (by reference: `indexOf(node) > -1`), splice out its first
occurrence; otherwise recurse into the non-empty children arrays of every
element. -/
def _delete (nodes : List TreeNode) (i : Nat) : List TreeNode :=
  if nodes.any (fun c => c.id == i) then removeFirstById nodes i
  else deleteEach nodes i

/-- The `for (let _node of nodes)` loop in the not-found branch of
`_delete`: recurse into every element with a non-empty children array. -/
def deleteEach (nodes : List TreeNode) (i : Nat) : List TreeNode :=
  match nodes with
  | [] => []
  | .mk j nm none :: rest => .mk j nm none :: deleteEach rest i
  | .mk j nm (some cs) :: rest =>
      (if cs.length > 0 then TreeNode.mk j nm (some (_delete cs i)) else .mk j nm (some cs))
        :: deleteEach rest i

end

/-- Source `TreeNodeService.delete(node)`: `_delete` on the root collection. -/
def delete (data : List TreeNode) (node : TreeNode) : List TreeNode :=
  _delete data node.id

mutual

/-- `lodash.cloneDeep` on a node: a structurally identical copy made of fresh
objects.  The allocation counter `fresh` supplies the fresh ids; the copy's
ids all lie in `[fresh, result.2)`. -/
def cloneDeepT : TreeNode → Nat → TreeNode × Nat
  | .mk _ nm none, fresh => (.mk fresh nm none, fresh + 1)
  | .mk _ nm (some cs), fresh =>
      let r := cloneDeepL cs (fresh + 1)
      (.mk fresh nm (some r.1), r.2)

/-- `cloneDeepT` across a list of children. -/
def cloneDeepL : List TreeNode → Nat → List TreeNode × Nat
  | [], fresh => ([], fresh)
  | c :: rest, fresh =>
      let rc := cloneDeepT c fresh
      let rr := cloneDeepL rest rc.2
      (rc.1 :: rr.1, rr.2)

end

mutual

/-- Content equality of nodes: same payload and recursively content-equal
children, ignoring object identities (what Jasmine's `toEqual` compares). -/
def contentEqT : TreeNode → TreeNode → Bool
  | .mk _ n1 c1, .mk _ n2 c2 => n1 == n2 && contentEqO c1 c2

/-- Content equality of optional children arrays. -/
def contentEqO : Option (List TreeNode) → Option (List TreeNode) → Bool
  | none, none => true
  | some l1, some l2 => contentEqL l1 l2
  | none, some _ => false
  | some _, none => false

/-- Content equality of children arrays. -/
def contentEqL : List TreeNode → List TreeNode → Bool
  | [], [] => true
  | x :: xs, y :: ys => contentEqT x y && contentEqL xs ys
  | [], _ :: _ => false
  | _ :: _, [] => false

end

/-- Source `TreeNodeService.cloneAsChild(originalNode, parentNode)`: note the
source calls `cloneDeep` twice — `clonedNode = cloneDeep(originalNode)` is
returned while a second, separate `cloneDeep(originalNode)` is what gets
inserted.  Returns (returned clone, new root collection, new counter). -/
def cloneAsChild (data : List TreeNode) (fresh : Nat) (originalNode parentNode : TreeNode) :
    TreeNode × List TreeNode × Nat :=
  let clonedNode := cloneDeepT originalNode fresh
  let inserted := cloneDeepT originalNode clonedNode.2
  (clonedNode.1, insertChild data parentNode inserted.1, inserted.2)

/-- Source `TreeNodeService.cloneAsSiblingBefore(originalNode, siblingNode)`:
clone once, insert the clone itself via `insertBefore`, return the clone. -/
def cloneAsSiblingBefore (data : List TreeNode) (fresh : Nat) (originalNode siblingNode : TreeNode) :
    TreeNode × List TreeNode × Nat :=
  let clonedNode := cloneDeepT originalNode fresh
  (clonedNode.1, insertBefore data siblingNode clonedNode.1, clonedNode.2)

/-- Source `TreeNodeService.cloneAsSiblingAfter(originalNode, siblingNode)`:
clone once, insert the clone itself via `insertAfter`, return the clone. -/
def cloneAsSiblingAfter (data : List TreeNode) (fresh : Nat) (originalNode siblingNode : TreeNode) :
    TreeNode × List TreeNode × Nat :=
  let clonedNode := cloneDeepT originalNode fresh
  (clonedNode.1, insertAfter data siblingNode clonedNode.1, clonedNode.2)

/-- Source `TreeNodeService.isSibling(node, sibling)`: compare
`getParent(node) == getParent(sibling)`, JavaScript reference equality of the
parent objects (or both `null`), modelled by comparing the parents'
identities. -/
def isSibling (data : List TreeNode) (node sibling : TreeNode) : Bool :=
  (getParent data node).map TreeNode.id == (getParent data sibling).map TreeNode.id

/-- The `while (parentNode !== null)` loop of `getNodePath`, pushing each
parent in turn.  The source loop terminates because every `getParent` step
strictly decreases the depth of the current node; the `fuel` argument is the
embedding's bound on the number of iterations, and `getNodePath` passes the
total node count, which the depth never reaches. -/
def getNodePathStep (data : List TreeNode) : Nat → Option TreeNode → List TreeNode → List TreeNode
  | _, none, acc => acc
  | 0, some _, acc => acc
  | fuel + 1, some p, acc => getNodePathStep data fuel (getParent data p) (acc ++ [p])

/-- Source `TreeNodeService.getNodePath(node)`: `[node]` plus the chain of
parents, reversed into root-first order. -/
def getNodePath (data : List TreeNode) (node : TreeNode) : List TreeNode :=
  (getNodePathStep data (subnodesL data).length (getParent data node) [node]).reverse

/-- The `TreeFlatNode` projection: `fid` is the flat node's own object
identity (heap address), `node` the associated nested node, plus the
`expandable` and `level` fields of the source class. -/
structure TreeFlatNode where
  fid : Nat
  node : TreeNode
  expandable : Bool
  level : Nat

/-- The `node.children != null && node.children.length > 0` computation of the
source `transformer` (in JavaScript `undefined != null` is `false`). -/
def isExpandableNode (n : TreeNode) : Bool :=
  match n.children with
  | none => false
  | some cs => decide (cs.length > 0)

/-- `Map.get` on the service's `nodeMap` (keyed by tree-node reference). -/
def mapLookup (i : Nat) : List (Nat × TreeFlatNode) → Option TreeFlatNode
  | [] => none
  | (j, v) :: rest => if j = i then some v else mapLookup i rest

/-- `Map.set` on the service's `nodeMap`: replace the entry for key `i` in
place, or append a new entry. -/
def mapSet (i : Nat) (v : TreeFlatNode) : List (Nat × TreeFlatNode) → List (Nat × TreeFlatNode)
  | [] => [(i, v)]
  | (j, w) :: rest => if j = i then (i, v) :: rest else (j, w) :: mapSet i v rest

/-- Source `TreeNodeService.transformer(node, level)`: reuse the mapped
`TreeFlatNode` (updating `level` and recomputing `expandable` in place) or
create and map a fresh one.  State: the `nodeMap` and the allocation counter
for flat-node identities; returns the flat node plus the new state. -/
def transformer (nodeMap : List (Nat × TreeFlatNode)) (ffresh : Nat) (node : TreeNode) (level : Nat) :
    TreeFlatNode × List (Nat × TreeFlatNode) × Nat :=
  match mapLookup node.id nodeMap with
  | some existingNode =>
      let updated : TreeFlatNode :=
        { existingNode with level := level, expandable := isExpandableNode node }
      (updated, mapSet node.id updated nodeMap, ffresh)
  | none =>
      let flatNode : TreeFlatNode := ⟨ffresh, node, isExpandableNode node, level⟩
      (flatNode, mapSet node.id flatNode nodeMap, ffresh + 1)

/-- The expansion state of the external `FlatTreeControl`: the set of
currently expanded flat nodes, by flat-node identity. -/
structure ExpState where
  expanded : List Nat

/-- `treeControl.isExpanded(flatNode)`. -/
def isExpanded (s : ExpState) (flatNode : TreeFlatNode) : Bool :=
  decide (flatNode.fid ∈ s.expanded)

/-- `treeControl.expand(flatNode)` (idempotent). -/
def expand (s : ExpState) (flatNode : TreeFlatNode) : ExpState :=
  if flatNode.fid ∈ s.expanded then s else ⟨flatNode.fid :: s.expanded⟩

/-- `treeControl.collapse(flatNode)`. -/
def collapse (s : ExpState) (flatNode : TreeFlatNode) : ExpState :=
  ⟨s.expanded.erase flatNode.fid⟩

/-- The `for` loop of `toggleNode` over `treeControl.dataNodes`: expand the
toggled flat node (`n === flatNode`) and every flat node whose tree node lies
on the node path, collapse every other flat node. -/
def toggleNodeLoop (flatNode : TreeFlatNode) (nodePath : List TreeNode) :
    List TreeFlatNode → ExpState → ExpState
  | [], s => s
  | n :: rest, s =>
      toggleNodeLoop flatNode nodePath rest
        (if n.fid == flatNode.fid || nodePath.any (fun a => a.id == n.node.id) then expand s n
         else collapse s n)

/-- Source `TreeNodeService.toggleNode(flatNode)`: collapse an expanded node;
otherwise expand the node path (accordion policy) over all of `dataNodes`. -/
def toggleNode (data : List TreeNode) (dataNodes : List TreeFlatNode) (s : ExpState)
    (flatNode : TreeFlatNode) : ExpState :=
  if isExpanded s flatNode then collapse s flatNode
  else toggleNodeLoop flatNode (getNodePath data flatNode.node) dataNodes s

/-! ### Basic structural lemmas -/

/-- A node's parent candidacy: `q` directly contains the id `i` in its
children array (the reference-equality containment the service searches
for). -/
def isParentOfId (q : TreeNode) (i : Nat) : Prop :=
  ∃ c ∈ q.childrenList, c.id = i

theorem subnodesT_eq (t : TreeNode) : subnodesT t = t :: subnodesL t.childrenList := by
  match t with
  | .mk i nm none => rfl
  | .mk i nm (some cs) => rfl

theorem self_mem_subnodesT (t : TreeNode) : t ∈ subnodesT t := by
  rw [subnodesT_eq]; exact List.mem_cons_self t _

theorem subnodesL_cons (t : TreeNode) (ts : List TreeNode) :
    subnodesL (t :: ts) = subnodesT t ++ subnodesL ts := rfl

theorem subnodesL_append (l1 l2 : List TreeNode) :
    subnodesL (l1 ++ l2) = subnodesL l1 ++ subnodesL l2 := by
  induction l1 with
  | nil => rfl
  | cons t ts ih => simp [subnodesL_cons, ih]

theorem idsT_eq (t : TreeNode) : idsT t = t.id :: idsL t.childrenList := by
  rw [idsT, idsL, subnodesT_eq]; rfl

theorem idsL_cons (t : TreeNode) (ts : List TreeNode) :
    idsL (t :: ts) = idsT t ++ idsL ts := by
  rw [idsL, idsT, idsL, subnodesL_cons, List.map_append]

theorem idsL_append (l1 l2 : List TreeNode) :
    idsL (l1 ++ l2) = idsL l1 ++ idsL l2 := by
  rw [idsL, idsL, idsL, subnodesL_append, List.map_append]

theorem mem_subnodesL_of_mem {c : TreeNode} {l : List TreeNode} (h : c ∈ l) :
    c ∈ subnodesL l := by
  induction l with
  | nil => cases h
  | cons t ts ih =>
    rw [subnodesL_cons]
    rcases List.mem_cons.mp h with h | h
    · subst h; exact List.mem_append_left _ (self_mem_subnodesT c)
    · exact List.mem_append_right _ (ih h)

mutual

theorem subnodesT_trans {q t : TreeNode} (h : q ∈ subnodesT t) :
    subnodesT q ⊆ subnodesT t := by
  match t with
  | .mk j nm none =>
    simp [subnodesT] at h
    subst h
    exact fun _ hx => hx
  | .mk j nm (some cs) =>
    rw [subnodesT] at h
    rcases List.mem_cons.mp h with h | h
    · subst h; exact fun _ hx => hx
    · intro x hx
      rw [subnodesT]
      exact List.mem_cons_of_mem _ (subnodesL_trans h hx)

theorem subnodesL_trans {q : TreeNode} {l : List TreeNode} (h : q ∈ subnodesL l) :
    subnodesT q ⊆ subnodesL l := by
  match l with
  | [] => cases h
  | t :: ts =>
    rw [subnodesL_cons] at h ⊢
    rcases List.mem_append.mp h with h | h
    · exact fun x hx => List.mem_append_left _ (subnodesT_trans h hx)
    · exact fun x hx => List.mem_append_right _ (subnodesL_trans h hx)

end

theorem idsT_subset_of_mem_subnodesT {q t : TreeNode} (h : q ∈ subnodesT t) :
    idsT q ⊆ idsT t := by
  rw [idsT, idsT]
  exact fun i hi => by
    rcases List.mem_map.mp hi with ⟨x, hx, hxi⟩
    exact List.mem_map.mpr ⟨x, subnodesT_trans h hx, hxi⟩

theorem idsT_subset_of_mem_subnodesL {q : TreeNode} {l : List TreeNode}
    (h : q ∈ subnodesL l) : idsT q ⊆ idsL l := by
  rw [idsT, idsL]
  exact fun i hi => by
    rcases List.mem_map.mp hi with ⟨x, hx, hxi⟩
    exact List.mem_map.mpr ⟨x, subnodesL_trans h hx, hxi⟩

theorem id_mem_idsT_self (t : TreeNode) : t.id ∈ idsT t := by
  rw [idsT]
  exact List.mem_map.mpr ⟨t, self_mem_subnodesT t, rfl⟩

theorem id_mem_idsL_of_mem {t : TreeNode} {l : List TreeNode} (h : t ∈ subnodesL l) :
    t.id ∈ idsL l := by
  rw [idsL]
  exact List.mem_map.mpr ⟨t, h, rfl⟩

/-- A direct child of `q` is a subnode of `q`. -/
theorem child_mem_subnodesT {c q : TreeNode} (h : c ∈ q.childrenList) :
    c ∈ subnodesT q := by
  rw [subnodesT_eq]
  exact List.mem_cons_of_mem _ (mem_subnodesL_of_mem h)

/-- If `q` directly contains the id `i`, then `i` occurs among the ids of
`q`'s children part. -/
theorem mem_children_ids_of_isParentOfId {q : TreeNode} {i : Nat}
    (h : isParentOfId q i) : i ∈ idsL q.childrenList := by
  rcases h with ⟨c, hc, hci⟩
  subst hci
  exact id_mem_idsL_of_mem (mem_subnodesL_of_mem hc)

theorem mem_idsT_of_isParentOfId {q : TreeNode} {i : Nat}
    (h : isParentOfId q i) : i ∈ idsT q := by
  rw [idsT_eq]
  exact List.mem_cons_of_mem _ (mem_children_ids_of_isParentOfId h)

/-! ### Soundness of the parent search -/

mutual

/-- If `_getParent` finds a parent, it is a subnode of the scanned tree and
directly contains the id searched for. -/
theorem getParentAux_sound {i : Nat} {t q : TreeNode}
    (h : _getParent i t = some q) : q ∈ subnodesT t ∧ isParentOfId q i := by
  match t with
  | .mk j nm none => simp [_getParent] at h
  | .mk j nm (some cs) =>
    rw [_getParent] at h
    rcases getParentScan_sound h with ⟨hq, c, hc, hci⟩ | ⟨hq, hc⟩
    · subst hq
      exact ⟨self_mem_subnodesT _, ⟨c, hc, hci⟩⟩
    · rw [subnodesT]
      exact ⟨List.mem_cons_of_mem _ hq, hc⟩

theorem getParentScan_sound {i : Nat} {pn q : TreeNode} {cs : List TreeNode}
    (h : getParentScan i pn cs = some q) :
    (q = pn ∧ ∃ c ∈ cs, c.id = i) ∨ (q ∈ subnodesL cs ∧ isParentOfId q i) := by
  match cs with
  | [] => simp [getParentScan] at h
  | c :: rest =>
    rw [getParentScan] at h
    by_cases hc : c.id = i
    · rw [if_pos hc] at h
      injection h with h
      exact Or.inl ⟨h.symm, c, List.mem_cons_self c rest, hc⟩
    · rw [if_neg hc] at h
      match hq : _getParent i c with
      | some p =>
        rw [hq] at h
        injection h with h
        subst h
        have := getParentAux_sound hq
        right
        exact ⟨List.mem_append_left _ this.1, this.2⟩
      | none =>
        rw [hq] at h
        rcases getParentScan_sound h with ⟨hq2, c2, hc2, hc2i⟩ | ⟨hq2, hc2⟩
        · exact Or.inl ⟨hq2, c2, List.mem_cons_of_mem _ hc2, hc2i⟩
        · rw [subnodesL_cons]
          exact Or.inr ⟨List.mem_append_right _ hq2, hc2⟩

end

/-- Data-level soundness: a found parent is a subnode of the structure and
directly contains the searched id. -/
theorem getParentLoop_sound {data : List TreeNode} {i : Nat} {q : TreeNode}
    (h : getParentLoop data i = some q) : q ∈ subnodesL data ∧ isParentOfId q i := by
  induction data with
  | nil => simp [getParentLoop] at h
  | cons r rs ih =>
    rw [getParentLoop] at h
    match hr : _getParent i r with
    | some p =>
      rw [hr] at h
      injection h with h
      subst h
      have := getParentAux_sound hr
      exact ⟨List.mem_append_left _ this.1, this.2⟩
    | none =>
      rw [hr] at h
      have := ih h
      exact ⟨List.mem_append_right _ this.1, this.2⟩

/-- If the searched id does not occur in the subtree at all, `_getParent`
misses. -/
theorem getParentAux_eq_none {i : Nat} {t : TreeNode} (h : i ∉ idsT t) :
    _getParent i t = none := by
  match hq : _getParent i t with
  | none => rfl
  | some q =>
    exfalso
    have hs := getParentAux_sound hq
    exact h (idsT_subset_of_mem_subnodesT hs.1 (mem_idsT_of_isParentOfId hs.2))

/-- If the searched id does not occur in the structure at all, the parent
search misses. -/
theorem getParentLoop_eq_none {data : List TreeNode} {i : Nat} (h : i ∉ idsL data) :
    getParentLoop data i = none := by
  match hq : getParentLoop data i with
  | none => rfl
  | some q =>
    exfalso
    have hs := getParentLoop_sound hq
    exact h (idsT_subset_of_mem_subnodesL hs.1 (mem_idsT_of_isParentOfId hs.2))

/-- Under `Nodup` of a subtree's ids, no subnode of `t` (including `t`
itself) can directly contain `t`'s own id. -/
theorem not_isParentOfId_top {t q : TreeNode} (hnd : (idsT t).Nodup)
    (hq : q ∈ subnodesT t) (hp : isParentOfId q t.id) : False := by
  have hmem : t.id ∈ idsL t.childrenList := by
    rw [subnodesT_eq] at hq
    rcases List.mem_cons.mp hq with hq | hq
    · subst hq
      exact mem_children_ids_of_isParentOfId hp
    · exact idsT_subset_of_mem_subnodesL hq (mem_idsT_of_isParentOfId hp)
  rw [idsT_eq] at hnd
  exact (List.nodup_cons.mp hnd).1 hmem

/-- Under `Nodup` of a subtree's ids, searching for the subtree root's own id
inside the subtree misses. -/
theorem getParentAux_eq_none_of_top {t : TreeNode} (hnd : (idsT t).Nodup) :
    _getParent t.id t = none := by
  match hq : _getParent t.id t with
  | none => rfl
  | some q =>
    exfalso
    have hs := getParentAux_sound hq
    exact not_isParentOfId_top hnd hs.1 hs.2

/-- Root-level nodes have no parent: under well-formedness, searching for the
id of a member of the root collection misses. -/
theorem getParentLoop_root {data : List TreeNode} {t : TreeNode}
    (hnd : (idsL data).Nodup) (ht : t ∈ data) : getParentLoop data t.id = none := by
  induction data with
  | nil => cases ht
  | cons r rs ih =>
    rw [idsL_cons, List.nodup_append] at hnd
    rw [getParentLoop]
    rcases List.mem_cons.mp ht with ht | ht
    · subst ht
      rw [getParentAux_eq_none_of_top hnd.1]
      exact getParentLoop_eq_none (fun hmem => hnd.2.2 (id_mem_idsT_self t) hmem)
    · rw [getParentAux_eq_none (fun hmem => hnd.2.2 hmem (idsT_subset_of_mem_subnodesL
        (mem_subnodesL_of_mem ht) (id_mem_idsT_self t)))]
      exact ih hnd.2.1 ht

/-! ### Completeness of the parent search under well-formedness -/

/-- If some element of the scanned children list carries the searched id, the
scan returns the parent node being scanned (under `Nodup` earlier elements
cannot contain the id). -/
theorem getParentScan_hit {i : Nat} {pn : TreeNode} {cs : List TreeNode} {c : TreeNode}
    (hnd : (idsL cs).Nodup) (hc : c ∈ cs) (hci : c.id = i) :
    getParentScan i pn cs = some pn := by
  induction cs with
  | nil => cases hc
  | cons x rest ih =>
    rw [idsL_cons, List.nodup_append] at hnd
    rw [getParentScan]
    rcases List.mem_cons.mp hc with hc | hc
    · subst hc
      rw [if_pos hci]
    · have hi_rest : i ∈ idsL rest := by
        rw [← hci]
        exact id_mem_idsL_of_mem (mem_subnodesL_of_mem hc)
      have hxi : ¬ x.id = i := fun hx =>
        hnd.2.2 (hx ▸ id_mem_idsT_self x) hi_rest
      rw [if_neg hxi, getParentAux_eq_none (fun hmem => hnd.2.2 hmem hi_rest)]
      exact ih hnd.2.1 hc

mutual

/-- Completeness at tree level: under `Nodup`, if some subnode `q` of `t`
directly contains the id `i`, `_getParent` finds exactly `q`. -/
theorem getParentAux_complete {i : Nat} {t q : TreeNode}
    (hnd : (idsT t).Nodup) (hq : q ∈ subnodesT t) (hp : isParentOfId q i) :
    _getParent i t = some q := by
  match t with
  | .mk j nm none =>
    rw [subnodesT_eq] at hq
    rcases List.mem_cons.mp hq with hq | hq
    · subst hq
      rcases hp with ⟨c, hc, _⟩
      cases hc
    · cases hq
  | .mk j nm (some cs) =>
    have hnd' : (idsL cs).Nodup := by
      rw [idsT_eq] at hnd
      exact (List.nodup_cons.mp hnd).2
    rw [subnodesT_eq] at hq
    rw [_getParent]
    rcases List.mem_cons.mp hq with hq | hq
    · subst hq
      rcases hp with ⟨c, hc, hci⟩
      exact getParentScan_hit hnd' hc hci
    · exact getParentScan_complete hnd' hq hp

/-- Completeness at forest level: under `Nodup`, if some subnode `q` of the
forest directly contains the id `i`, the scan returns exactly `q`. -/
theorem getParentScan_complete {i : Nat} {pn : TreeNode} {cs : List TreeNode} {q : TreeNode}
    (hnd : (idsL cs).Nodup) (hq : q ∈ subnodesL cs) (hp : isParentOfId q i) :
    getParentScan i pn cs = some q := by
  match cs with
  | [] => cases hq
  | x :: rest =>
    have hnd2 := hnd
    rw [idsL_cons, List.nodup_append] at hnd2
    rw [subnodesL_cons] at hq
    rw [getParentScan]
    rcases List.mem_append.mp hq with hq | hq
    · have hxi : ¬ x.id = i := fun hx =>
        not_isParentOfId_top hnd2.1 hq (hx ▸ hp)
      rw [if_neg hxi, getParentAux_complete hnd2.1 hq hp]
    · have hi_rest : i ∈ idsL rest :=
        idsT_subset_of_mem_subnodesL hq (mem_idsT_of_isParentOfId hp)
      have hxi : ¬ x.id = i := fun hx =>
        hnd2.2.2 (hx ▸ id_mem_idsT_self x) hi_rest
      rw [if_neg hxi, getParentAux_eq_none (fun hmem => hnd2.2.2 hmem hi_rest)]
      exact getParentScan_complete hnd2.2.1 hq hp

end

/-- Completeness at data level: under well-formedness, if some subnode `q` of
the structure directly contains the id `i`, `getParent`'s loop returns
exactly `q`. -/
theorem getParentLoop_complete {data : List TreeNode} {i : Nat} {q : TreeNode}
    (hnd : (idsL data).Nodup) (hq : q ∈ subnodesL data) (hp : isParentOfId q i) :
    getParentLoop data i = some q := by
  induction data with
  | nil => cases hq
  | cons r rs ih =>
    rw [idsL_cons, List.nodup_append] at hnd
    rw [subnodesL_cons] at hq
    rw [getParentLoop]
    rcases List.mem_append.mp hq with hq | hq
    · rw [getParentAux_complete hnd.1 hq hp]
    · rw [getParentAux_eq_none (fun hmem =>
        hnd.2.2 hmem (idsT_subset_of_mem_subnodesL hq (mem_idsT_of_isParentOfId hp)))]
      exact ih hnd.2.1 hq

/-! ### Root-first paths (specification-side helper for `getNodePath`) -/

/-- `b` is a direct child of `a` (an actual occurrence in `a`'s children
array). -/
def childMem (a b : TreeNode) : Prop := b ∈ a.childrenList

mutual

/-- The root-first list of actual tree occurrences leading from `t` down to
the depth-first-first node with id `i`, if any. -/
def idPathT (i : Nat) : TreeNode → Option (List TreeNode)
  | .mk j nm none => if j = i then some [.mk j nm none] else none
  | .mk j nm (some cs) =>
      if j = i then some [.mk j nm (some cs)]
      else (idPathL i cs).map (fun p => .mk j nm (some cs) :: p)

/-- `idPathT` over a forest: the path inside the first tree that contains the
id. -/
def idPathL (i : Nat) : List TreeNode → Option (List TreeNode)
  | [] => none
  | c :: rest =>
      match idPathT i c with
      | some p => some p
      | none => idPathL i rest

end

mutual

/-- Shape of a successful tree-level path search: it starts at the scanned
root, descends child-by-child, stays inside the subtree, and ends at a node
carrying the searched id. -/
theorem idPathT_spec {i : Nat} {t : TreeNode} {p : List TreeNode}
    (h : idPathT i t = some p) :
    p.head? = some t ∧ List.Chain' childMem p ∧ (∀ x ∈ p, x ∈ subnodesT t) ∧
    ∃ q tl, p = q ++ [tl] ∧ tl.id = i := by
  match t with
  | .mk j nm none =>
    rw [idPathT] at h
    by_cases hj : j = i
    · rw [if_pos hj] at h
      injection h with h
      subst h
      refine ⟨rfl, List.chain'_singleton _, ?_, [], .mk j nm none, rfl, hj⟩
      intro x hx
      rcases List.mem_singleton.mp hx with rfl
      exact self_mem_subnodesT _
    · rw [if_neg hj] at h
      cases h
  | .mk j nm (some cs) =>
    rw [idPathT] at h
    by_cases hj : j = i
    · rw [if_pos hj] at h
      injection h with h
      subst h
      refine ⟨rfl, List.chain'_singleton _, ?_, [], .mk j nm (some cs), rfl, hj⟩
      intro x hx
      rcases List.mem_singleton.mp hx with rfl
      exact self_mem_subnodesT _
    · rw [if_neg hj] at h
      rcases Option.map_eq_some'.mp h with ⟨p', hp', hmap⟩
      subst hmap
      obtain ⟨⟨hd, hhd, hhdm⟩, hch, hmem, q, tl, hdec, htl⟩ := idPathL_spec hp'
      refine ⟨rfl, ?_, ?_, .mk j nm (some cs) :: q, tl, by rw [hdec, List.cons_append], htl⟩
      · rw [List.chain'_cons']
        refine ⟨?_, hch⟩
        intro y hy
        rw [hhd] at hy
        injection hy with hy
        subst hy
        exact hhdm
      · intro x hx
        rcases List.mem_cons.mp hx with rfl | hx
        · exact self_mem_subnodesT _
        · rw [subnodesT_eq]
          exact List.mem_cons_of_mem _ (hmem x hx)

/-- Shape of a successful forest-level path search. -/
theorem idPathL_spec {i : Nat} {l : List TreeNode} {p : List TreeNode}
    (h : idPathL i l = some p) :
    (∃ hd, p.head? = some hd ∧ hd ∈ l) ∧ List.Chain' childMem p ∧
    (∀ x ∈ p, x ∈ subnodesL l) ∧ ∃ q tl, p = q ++ [tl] ∧ tl.id = i := by
  match l with
  | [] => cases h
  | c :: rest =>
    rw [idPathL] at h
    match hc : idPathT i c with
    | some p0 =>
      rw [hc] at h
      injection h with h
      subst h
      obtain ⟨hhd, hch, hmem, hdec⟩ := idPathT_spec hc
      refine ⟨⟨c, hhd, List.mem_cons_self c rest⟩, hch, ?_, hdec⟩
      intro x hx
      rw [subnodesL_cons]
      exact List.mem_append_left _ (hmem x hx)
    | none =>
      rw [hc] at h
      obtain ⟨⟨hd, hhd, hhdm⟩, hch, hmem, hdec⟩ := idPathL_spec h
      refine ⟨⟨hd, hhd, List.mem_cons_of_mem _ hhdm⟩, hch, ?_, hdec⟩
      intro x hx
      rw [subnodesL_cons]
      exact List.mem_append_right _ (hmem x hx)

end

/-- The searched id occurs in the subtree whenever the tree-level path search
succeeds. -/
theorem idPathT_mem_ids {i : Nat} {t : TreeNode} {p : List TreeNode}
    (h : idPathT i t = some p) : i ∈ idsT t := by
  obtain ⟨_, _, hmem, q, tl, hdec, htl⟩ := idPathT_spec h
  subst htl
  exact idsT_subset_of_mem_subnodesT (hmem tl (by rw [hdec]; simp)) (id_mem_idsT_self tl)

mutual

/-- Existence of the path: any id occurring in the subtree is found. -/
theorem idPathT_isSome {i : Nat} {t : TreeNode} (h : i ∈ idsT t) :
    (idPathT i t).isSome := by
  match t with
  | .mk j nm none =>
    have hj : i = j := by
      simpa [idsT, subnodesL, subnodesT, TreeNode.id] using h
    rw [idPathT, if_pos hj.symm]
    rfl
  | .mk j nm (some cs) =>
    rw [idPathT]
    by_cases hj : j = i
    · rw [if_pos hj]
      rfl
    · rw [if_neg hj]
      rw [idsT_eq] at h
      simp only [TreeNode.id, TreeNode.childrenList] at h
      rcases List.mem_cons.mp h with h | h
      · exact absurd h.symm hj
      · have := idPathL_isSome (l := cs) h
        rcases Option.isSome_iff_exists.mp this with ⟨p', hp'⟩
        rw [hp']
        rfl

/-- Existence of the path at forest level. -/
theorem idPathL_isSome {i : Nat} {l : List TreeNode} (h : i ∈ idsL l) :
    (idPathL i l).isSome := by
  match l with
  | [] => cases h
  | c :: rest =>
    rw [idPathL]
    match hc : idPathT i c with
    | some p0 => rfl
    | none =>
      rw [idsL_cons] at h
      rcases List.mem_append.mp h with h | h
      · have := idPathT_isSome (t := c) h
        rw [hc] at this
        cases this
      · exact idPathL_isSome h

end

mutual

/-- The path is no longer than the subtree's node count. -/
theorem idPathT_length {i : Nat} {t : TreeNode} {p : List TreeNode}
    (h : idPathT i t = some p) : p.length ≤ (subnodesT t).length := by
  match t with
  | .mk j nm none =>
    rw [idPathT] at h
    by_cases hj : j = i
    · rw [if_pos hj] at h
      injection h with h
      subst h
      simp [subnodesT]
    · rw [if_neg hj] at h
      cases h
  | .mk j nm (some cs) =>
    rw [idPathT] at h
    by_cases hj : j = i
    · rw [if_pos hj] at h
      injection h with h
      subst h
      simp [subnodesT_eq]
    · rw [if_neg hj] at h
      rcases Option.map_eq_some'.mp h with ⟨p', hp', hmap⟩
      subst hmap
      have := idPathL_length hp'
      rw [subnodesT_eq]
      simpa using Nat.succ_le_succ this

/-- The path is no longer than the forest's node count. -/
theorem idPathL_length {i : Nat} {l : List TreeNode} {p : List TreeNode}
    (h : idPathL i l = some p) : p.length ≤ (subnodesL l).length := by
  match l with
  | [] => cases h
  | c :: rest =>
    rw [idPathL] at h
    match hc : idPathT i c with
    | some p0 =>
      rw [hc] at h
      injection h with h
      subst h
      have := idPathT_length hc
      rw [subnodesL_cons, List.length_append]
      omega
    | none =>
      rw [hc] at h
      have := idPathL_length h
      rw [subnodesL_cons, List.length_append]
      omega

end

/-- Under well-formedness, distinct occurrences have distinct ids, so two
subnodes with the same id are the same node. -/
theorem eq_of_id_eq {data : List TreeNode} (hnd : (idsL data).Nodup) {a b : TreeNode}
    (ha : a ∈ subnodesL data) (hb : b ∈ subnodesL data) (hid : a.id = b.id) : a = b :=
  List.inj_on_of_nodup_map (by rw [idsL] at hnd; exact hnd) ha hb hid

/-- The last node of a child-descent chain starting at `t` is a subnode of
`t`. -/
theorem chain_getLastD_mem_subnodesT :
    ∀ {rest : List TreeNode} {t : TreeNode}, List.Chain' childMem (t :: rest) →
      rest.getLastD t ∈ subnodesT t := by
  intro rest
  induction rest with
  | nil => exact fun _ => self_mem_subnodesT _
  | cons r rest' ih =>
    intro t hch
    rw [List.chain'_cons] at hch
    rw [List.getLastD_cons]
    exact subnodesT_trans (child_mem_subnodesT hch.1) (ih hch.2)

mutual

/-- Under `Nodup`, a child-descent chain of actual occurrences starting at
`t` is exactly what the path search finds for the id of its last node. -/
theorem idPathT_unique {t : TreeNode} {rest : List TreeNode}
    (hnd : (idsT t).Nodup) (hch : List.Chain' childMem (t :: rest)) :
    idPathT ((rest.getLastD t).id) t = some (t :: rest) := by
  match rest with
  | [] =>
    match t with
    | .mk j nm none => simp [idPathT, TreeNode.id]
    | .mk j nm (some cs) => simp [idPathT, TreeNode.id]
  | r :: rest' =>
    rw [List.chain'_cons] at hch
    have hr : r ∈ t.childrenList := hch.1
    have hlast : (rest'.getLastD r) ∈ subnodesT r := chain_getLastD_mem_subnodesT hch.2
    have hin : (rest'.getLastD r).id ∈ idsL t.childrenList :=
      idsT_subset_of_mem_subnodesL (subnodesL_trans (mem_subnodesL_of_mem hr) hlast)
        (id_mem_idsT_self _)
    rw [idsT_eq, List.nodup_cons] at hnd
    have hne : ¬ t.id = (rest'.getLastD r).id := fun he => hnd.1 (he ▸ hin)
    match t with
    | .mk j nm none =>
      rcases hr
    | .mk j nm (some cs) =>
      rw [List.getLastD_cons, idPathT,
        if_neg (by simpa [TreeNode.id] using hne)]
      have := idPathL_unique (l := cs)
        (by simpa [TreeNode.childrenList] using hnd.2)
        (by simpa [TreeNode.childrenList] using hr) hch.2
      rw [this]
      rfl

/-- Forest-level version of `idPathT_unique`. -/
theorem idPathL_unique {l : List TreeNode} {hd : TreeNode} {rest : List TreeNode}
    (hnd : (idsL l).Nodup) (hhd : hd ∈ l) (hch : List.Chain' childMem (hd :: rest)) :
    idPathL ((rest.getLastD hd).id) l = some (hd :: rest) := by
  match l with
  | [] => cases hhd
  | x :: xs =>
    rw [idsL_cons, List.nodup_append] at hnd
    rw [idPathL]
    rcases List.mem_cons.mp hhd with hhd | hhd
    · subst hhd
      rw [idPathT_unique hnd.1 hch]
    · have hin : (rest.getLastD hd).id ∈ idsL xs :=
        idsT_subset_of_mem_subnodesL
          (subnodesL_trans (mem_subnodesL_of_mem hhd) (chain_getLastD_mem_subnodesT hch))
          (id_mem_idsT_self _)
      have hx : idPathT ((rest.getLastD hd).id) x = none := by
        match hq : idPathT ((rest.getLastD hd).id) x with
        | none => rfl
        | some p0 => exact absurd (idPathT_mem_ids hq) (fun hm => hnd.2.2 hm hin)
      rw [hx]
      exact idPathL_unique hnd.2.1 hhd hch

end

/-- STEP: the parent search agrees with the found path — the parent of the
path's endpoint is the path's second-to-last entry (or absent for a root). -/
theorem getParentLoop_of_idPath {data : List TreeNode} {i : Nat} {q : List TreeNode}
    {tl : TreeNode} (hnd : (idsL data).Nodup) (h : idPathL i data = some (q ++ [tl]))
    (htl : tl.id = i) : getParentLoop data i = q.getLast? := by
  obtain ⟨⟨hd, hhd, hhdm⟩, hch, hmem, _⟩ := idPathL_spec h
  rcases List.eq_nil_or_concat q with hq | ⟨q0, u, hq⟩
  · subst hq
    simp only [List.nil_append, List.head?_cons] at hhd
    injection hhd with hhd
    subst htl
    rw [hhd]
    exact getParentLoop_root hnd (hhd ▸ hhdm)
  · subst hq
    simp only [List.concat_eq_append] at hch hmem ⊢
    rw [List.getLast?_concat]
    have hlink : childMem u tl := by
      have := (List.chain'_append.mp hch).2.2
      exact this u (by rw [List.getLast?_concat]; rfl) tl rfl
    have humem : u ∈ subnodesL data := hmem u (by simp)
    exact getParentLoop_complete hnd humem ⟨tl, hlink, htl⟩

/-- PRE: dropping the endpoint of a found path yields the found path of the
endpoint's parent. -/
theorem idPathL_dropLast {data : List TreeNode} {i : Nat} {q0 : List TreeNode}
    {u tl : TreeNode} (hnd : (idsL data).Nodup)
    (h : idPathL i data = some ((q0 ++ [u]) ++ [tl])) :
    idPathL u.id data = some (q0 ++ [u]) := by
  obtain ⟨⟨hd, hhd, hhdm⟩, hch, _, _⟩ := idPathL_spec h
  have hch1 : List.Chain' childMem (q0 ++ [u]) := (List.chain'_append.mp hch).1
  match q0 with
  | [] =>
    simp only [List.nil_append, List.cons_append, List.head?_cons] at hhd
    injection hhd with hhd
    rw [← hhd] at hhdm
    have huniq := @idPathL_unique data u [] hnd hhdm (List.chain'_singleton u)
    simpa using huniq
  | x :: q0' =>
    simp only [List.cons_append, List.head?_cons] at hhd
    injection hhd with hhd
    rw [← hhd] at hhdm
    have huniq := @idPathL_unique data x (q0' ++ [u]) hnd hhdm hch1
    rw [List.getLastD_concat] at huniq
    exact huniq


/-- Unrolling the `getNodePath` loop along the found path: starting from the
parent of the path endpoint, the loop pushes exactly the reversed strict
ancestor prefix.  The fuel only needs to cover the ancestor count. -/
theorem getNodePathStep_unroll {data : List TreeNode} (hnd : (idsL data).Nodup) :
    ∀ (fuel : Nat) {i : Nat} {q : List TreeNode} {tl : TreeNode} (acc : List TreeNode),
      idPathL i data = some (q ++ [tl]) → tl.id = i → q.length ≤ fuel →
      getNodePathStep data fuel (getParentLoop data i) acc = acc ++ q.reverse := by
  intro fuel
  induction fuel with
  | zero =>
    intro i q tl acc h htl hlen
    have hq : q = [] := List.length_eq_zero.mp (Nat.le_zero.mp hlen)
    subst hq
    rw [getParentLoop_of_idPath hnd h htl]
    simp [getNodePathStep]
  | succ f ih =>
    intro i q tl acc h htl hlen
    rw [getParentLoop_of_idPath hnd h htl]
    rcases List.eq_nil_or_concat q with hq | ⟨q0, u, hq⟩
    · subst hq
      simp [getNodePathStep]
    · subst hq
      simp only [List.concat_eq_append] at h hlen ⊢
      rw [List.getLast?_concat]
      rw [getNodePathStep]
      have hpre := idPathL_dropLast hnd h
      have hihx := ih (acc ++ [u]) hpre rfl (by simp at hlen; omega)
      rw [getParent, hihx]
      simp

/-- The found path is a `getParent` chain: every entry is the parent of its
successor. -/
theorem idPath_parent_chain {data : List TreeNode} (hnd : (idsL data).Nodup) :
    ∀ (fuel : Nat) {i : Nat} {p : List TreeNode},
      idPathL i data = some p → p.length ≤ fuel →
      List.Chain' (fun a b => getParentLoop data b.id = some a) p := by
  intro fuel
  induction fuel with
  | zero =>
    intro i p h hlen
    have hp : p = [] := List.length_eq_zero.mp (Nat.le_zero.mp hlen)
    subst hp
    exact List.chain'_nil
  | succ f ih =>
    intro i p h hlen
    obtain ⟨_, _, _, q, tl, hdec, htl⟩ := idPathL_spec h
    subst hdec
    refine List.chain'_append.mpr ⟨?_, List.chain'_singleton _, ?_⟩
    · rcases List.eq_nil_or_concat q with hq | ⟨q0, u, hq⟩
      · subst hq; exact List.chain'_nil
      · subst hq
        simp only [List.concat_eq_append] at h hlen ⊢
        have hpre := idPathL_dropLast hnd h
        exact ih hpre (by simp at hlen ⊢; omega)
    · intro x hx y hy
      simp only [List.head?_cons] at hy
      injection hy with hy
      subst hy
      rw [htl]
      rw [getParentLoop_of_idPath hnd h htl]
      exact hx

/-- `getNodePath` returns exactly the root-first occurrence path of a node
present in the structure. -/
theorem getNodePath_eq_idPathL {data : List TreeNode} {n : TreeNode} {p : List TreeNode}
    (hnd : (idsL data).Nodup) (hn : n ∈ subnodesL data)
    (h : idPathL n.id data = some p) : getNodePath data n = p := by
  obtain ⟨_, _, hmem, q, tl, hdec, htl⟩ := idPathL_spec h
  subst hdec
  have htn : tl = n := eq_of_id_eq hnd (hmem tl (by simp)) hn htl
  subst htn
  rw [getNodePath, getParent]
  have hlen : q.length ≤ (subnodesL data).length := by
    have := idPathL_length h
    simp at this
    omega
  rw [getNodePathStep_unroll hnd ((subnodesL data).length) [tl] h rfl hlen]
  simp

/-! ### Deletion lemmas -/

mutual

/-- Specification-side removal: drop every node carrying id `i` from every
children array of the subtree (under well-formedness there is at most one
such node, so this is "remove the one occurrence and nothing else"). -/
def eraseIdT (i : Nat) : TreeNode → TreeNode
  | .mk j nm none => .mk j nm none
  | .mk j nm (some cs) => .mk j nm (some (eraseIdL i cs))

/-- `eraseIdT` over a forest, also dropping matching roots. -/
def eraseIdL (i : Nat) : List TreeNode → List TreeNode
  | [] => []
  | c :: rest => if c.id = i then eraseIdL i rest else eraseIdT i c :: eraseIdL i rest

end

mutual

theorem eraseIdT_of_not_mem {i : Nat} {t : TreeNode} (h : i ∉ idsT t) :
    eraseIdT i t = t := by
  match t with
  | .mk j nm none => rfl
  | .mk j nm (some cs) =>
    rw [idsT_eq] at h
    simp only [TreeNode.childrenList] at h
    rw [eraseIdT, eraseIdL_of_not_mem (fun hm => h (List.mem_cons_of_mem _ hm))]

theorem eraseIdL_of_not_mem {i : Nat} {l : List TreeNode} (h : i ∉ idsL l) :
    eraseIdL i l = l := by
  match l with
  | [] => rfl
  | c :: rest =>
    rw [idsL_cons] at h
    have h1 : i ∉ idsT c := fun hm => h (List.mem_append_left _ hm)
    have h2 : i ∉ idsL rest := fun hm => h (List.mem_append_right _ hm)
    rw [eraseIdL, if_neg (show ¬ c.id = i from fun he => h1 (he ▸ id_mem_idsT_self c)),
      eraseIdT_of_not_mem h1, eraseIdL_of_not_mem h2]

end

mutual

/-- Frame: deleting an id that does not occur anywhere leaves the forest
unchanged — the source's silent no-op on a miss. -/
theorem _delete_of_not_mem {l : List TreeNode} {i : Nat} (h : i ∉ idsL l) :
    _delete l i = l := by
  have hanyn : ¬ l.any (fun c => c.id == i) = true := by
    intro hany
    rcases List.any_eq_true.mp hany with ⟨c, hc, hci⟩
    exact h (eq_of_beq hci ▸ id_mem_idsL_of_mem (mem_subnodesL_of_mem hc))
  rw [_delete, if_neg hanyn]
  exact deleteEach_of_not_mem h

theorem deleteEach_of_not_mem {l : List TreeNode} {i : Nat} (h : i ∉ idsL l) :
    deleteEach l i = l := by
  match l with
  | [] => rw [deleteEach]
  | .mk j nm none :: rest =>
    rw [idsL_cons] at h
    rw [deleteEach, deleteEach_of_not_mem (fun hm => h (List.mem_append_right _ hm))]
  | .mk j nm (some cs) :: rest =>
    rw [idsL_cons] at h
    have h1 : i ∉ idsT (.mk j nm (some cs)) := fun hm => h (List.mem_append_left _ hm)
    rw [idsT_eq] at h1
    simp only [TreeNode.childrenList] at h1
    rw [deleteEach, deleteEach_of_not_mem (fun hm => h (List.mem_append_right _ hm)),
      _delete_of_not_mem (fun hm => h1 (List.mem_cons_of_mem _ hm))]
    simp

end

/-- Removing the first element with id `i` agrees with the specification-side
erase when the id is present at top level and ids are unique. -/
theorem removeFirstById_eq_eraseIdL {l : List TreeNode} {i : Nat}
    (hnd : (idsL l).Nodup) (hex : ∃ c ∈ l, c.id = i) :
    removeFirstById l i = eraseIdL i l := by
  induction l with
  | nil => rcases hex with ⟨c, hc, _⟩; cases hc
  | cons c rest ih =>
    rw [idsL_cons, List.nodup_append] at hnd
    by_cases hc : c.id = i
    · rw [removeFirstById, if_pos hc, eraseIdL, if_pos hc,
        eraseIdL_of_not_mem (fun hm => hnd.2.2 (hc ▸ id_mem_idsT_self c) hm)]
    · have hex' : ∃ c' ∈ rest, c'.id = i := by
        rcases hex with ⟨c', hc', hci⟩
        rcases List.mem_cons.mp hc' with rfl | hc'
        · exact absurd hci hc
        · exact ⟨c', hc', hci⟩
      have hi_rest : i ∈ idsL rest := by
        rcases hex' with ⟨c', hc', hci⟩
        exact hci ▸ id_mem_idsL_of_mem (mem_subnodesL_of_mem hc')
      rw [removeFirstById, if_neg hc, eraseIdL, if_neg hc,
        eraseIdT_of_not_mem (fun hm => hnd.2.2 hm hi_rest), ih hnd.2.1 hex']

mutual

/-- Under well-formedness the source's `_delete` is exactly the
specification-side erase of the id. -/
theorem _delete_eq_eraseIdL {l : List TreeNode} {i : Nat} (hnd : (idsL l).Nodup) :
    _delete l i = eraseIdL i l := by
  rw [_delete]
  by_cases hany : l.any (fun c => c.id == i) = true
  · rw [if_pos hany]
    rcases List.any_eq_true.mp hany with ⟨c, hc, hci⟩
    exact removeFirstById_eq_eraseIdL hnd ⟨c, hc, eq_of_beq hci⟩
  · rw [if_neg hany]
    refine deleteEach_eq_eraseIdL hnd ?_
    intro c hc hci
    exact hany (List.any_eq_true.mpr ⟨c, hc, by simp [hci]⟩)

/-- The recursive branch of `_delete` agrees with the specification-side
erase when no top-level element matches. -/
theorem deleteEach_eq_eraseIdL {l : List TreeNode} {i : Nat} (hnd : (idsL l).Nodup)
    (htop : ∀ c ∈ l, c.id = i → False) : deleteEach l i = eraseIdL i l := by
  match l with
  | [] => rw [deleteEach]; rfl
  | .mk j nm none :: rest =>
    rw [idsL_cons, List.nodup_append] at hnd
    rw [deleteEach, eraseIdL,
      if_neg (fun he => htop _ (List.mem_cons_self _ _) he)]
    rw [deleteEach_eq_eraseIdL hnd.2.1 (fun c hc => htop c (List.mem_cons_of_mem _ hc))]
    rfl
  | .mk j nm (some cs) :: rest =>
    have hnd2 := hnd
    rw [idsL_cons, List.nodup_append] at hnd2
    have hndcs : (idsL cs).Nodup := by
      have := hnd2.1
      rw [idsT_eq] at this
      simpa [TreeNode.childrenList] using (List.nodup_cons.mp this).2
    rw [deleteEach, eraseIdL,
      if_neg (fun he => htop _ (List.mem_cons_self _ _) he),
      deleteEach_eq_eraseIdL hnd2.2.1 (fun c hc => htop c (List.mem_cons_of_mem _ hc))]
    by_cases hlen : cs.length > 0
    · rw [if_pos hlen, _delete_eq_eraseIdL hndcs]
      rfl
    · rw [if_neg hlen]
      have hcs : cs = [] := List.length_eq_zero.mp (Nat.le_zero.mp (Nat.not_lt.mp hlen))
      subst hcs
      rfl

end

/-! ### Mutation-targeting lemmas -/

mutual

/-- Frame: a children mutation aimed at an id that does not occur in the
subtree leaves the subtree unchanged (the heap write happens outside it). -/
theorem updateChildrenT_of_not_mem {i : Nat} {f : List TreeNode → List TreeNode}
    {t : TreeNode} (h : i ∉ idsT t) : updateChildrenT i f t = t := by
  match t with
  | .mk j nm none =>
    rw [updateChildrenT,
      if_neg (show ¬ j = i from fun he => h (he ▸ id_mem_idsT_self (.mk j nm none)))]
  | .mk j nm (some cs) =>
    have h1 : i ∉ idsL cs := by
      rw [idsT_eq] at h
      simp only [TreeNode.childrenList] at h
      exact fun hm => h (List.mem_cons_of_mem _ hm)
    rw [updateChildrenT,
      if_neg (show ¬ j = i from fun he => h (he ▸ id_mem_idsT_self (.mk j nm (some cs)))),
      updateChildrenL_of_not_mem h1]

theorem updateChildrenL_of_not_mem {i : Nat} {f : List TreeNode → List TreeNode}
    {l : List TreeNode} (h : i ∉ idsL l) : updateChildrenL i f l = l := by
  match l with
  | [] => rfl
  | c :: rest =>
    rw [idsL_cons] at h
    rw [updateChildrenL, updateChildrenT_of_not_mem (fun hm => h (List.mem_append_left _ hm)),
      updateChildrenL_of_not_mem (fun hm => h (List.mem_append_right _ hm))]

end

mutual

/-- Hit: a children mutation aimed at an id that occurs in the subtree
applies `f` somewhere, so anything `f` always inserts is in the result. -/
theorem mem_updateChildrenT {i : Nat} {f : List TreeNode → List TreeNode} {x t : TreeNode}
    (hi : i ∈ idsT t) (hf : ∀ cs, x ∈ f cs) :
    x ∈ subnodesT (updateChildrenT i f t) := by
  match t with
  | .mk j nm none =>
    have hj : j = i := by
      rw [idsT_eq] at hi
      simp only [TreeNode.childrenList, TreeNode.id] at hi
      rcases List.mem_cons.mp hi with hi | hi
      · exact hi.symm
      · simp [idsL, subnodesL] at hi
    rw [updateChildrenT, if_pos hj, subnodesT_eq]
    simp only [TreeNode.childrenList]
    exact List.mem_cons_of_mem _ (mem_subnodesL_of_mem (hf []))
  | .mk j nm (some cs) =>
    rw [updateChildrenT]
    by_cases hj : j = i
    · rw [if_pos hj, subnodesT_eq]
      simp only [TreeNode.childrenList]
      exact List.mem_cons_of_mem _ (mem_subnodesL_of_mem (hf cs))
    · rw [if_neg hj]
      have hics : i ∈ idsL cs := by
        rw [idsT_eq] at hi
        simp only [TreeNode.childrenList, TreeNode.id] at hi
        rcases List.mem_cons.mp hi with hi | hi
        · exact absurd hi.symm hj
        · exact hi
      rw [subnodesT_eq]
      simp only [TreeNode.childrenList]
      exact List.mem_cons_of_mem _ (mem_updateChildrenL hics hf)

theorem mem_updateChildrenL {i : Nat} {f : List TreeNode → List TreeNode} {x : TreeNode}
    {l : List TreeNode} (hi : i ∈ idsL l) (hf : ∀ cs, x ∈ f cs) :
    x ∈ subnodesL (updateChildrenL i f l) := by
  match l with
  | [] => cases hi
  | c :: rest =>
    rw [idsL_cons] at hi
    rw [updateChildrenL, subnodesL_cons]
    rcases List.mem_append.mp hi with hi | hi
    · exact List.mem_append_left _ (mem_updateChildrenT hi hf)
    · exact List.mem_append_right _ (mem_updateChildrenL hi hf)

end

mutual

/-- A children mutation cannot introduce an id that neither the subtree nor
the mutation itself introduces. -/
theorem not_mem_idsT_updateChildrenT {a i : Nat} {f : List TreeNode → List TreeNode}
    {t : TreeNode} (ht : a ∉ idsT t) (hf : ∀ cs, a ∉ idsL cs → a ∉ idsL (f cs)) :
    a ∉ idsT (updateChildrenT i f t) := by
  match t with
  | .mk j nm none =>
    rw [updateChildrenT]
    by_cases hj : j = i
    · rw [if_pos hj, idsT_eq]
      simp only [TreeNode.childrenList, TreeNode.id]
      intro hmem
      rcases List.mem_cons.mp hmem with hmem | hmem
      · exact ht (hmem ▸ id_mem_idsT_self (.mk j nm none))
      · exact hf [] (by simp [idsL, subnodesL]) hmem
    · rw [if_neg hj]
      exact ht
  | .mk j nm (some cs) =>
    have ht' := ht
    rw [idsT_eq] at ht'
    simp only [TreeNode.childrenList, TreeNode.id] at ht'
    have htj : a ≠ j := fun he => ht' (he ▸ List.mem_cons_self _ _)
    have htcs : a ∉ idsL cs := fun hm => ht' (List.mem_cons_of_mem _ hm)
    rw [updateChildrenT]
    by_cases hj : j = i
    · rw [if_pos hj, idsT_eq]
      simp only [TreeNode.childrenList, TreeNode.id]
      intro hmem
      rcases List.mem_cons.mp hmem with hmem | hmem
      · exact htj hmem
      · exact hf cs htcs hmem
    · rw [if_neg hj, idsT_eq]
      simp only [TreeNode.childrenList, TreeNode.id]
      intro hmem
      rcases List.mem_cons.mp hmem with hmem | hmem
      · exact htj hmem
      · exact not_mem_idsL_updateChildrenL htcs hf hmem

theorem not_mem_idsL_updateChildrenL {a i : Nat} {f : List TreeNode → List TreeNode}
    {l : List TreeNode} (hl : a ∉ idsL l) (hf : ∀ cs, a ∉ idsL cs → a ∉ idsL (f cs)) :
    a ∉ idsL (updateChildrenL i f l) := by
  match l with
  | [] => exact hl
  | c :: rest =>
    rw [idsL_cons] at hl
    rw [updateChildrenL, idsL_cons]
    intro hmem
    rcases List.mem_append.mp hmem with hmem | hmem
    · exact not_mem_idsT_updateChildrenT (fun hm => hl (List.mem_append_left _ hm)) hf hmem
    · exact not_mem_idsL_updateChildrenL (fun hm => hl (List.mem_append_right _ hm)) hf hmem

end

/-- The spliced-in node is always a member of the splice result. -/
theorem mem_jsSpliceInsert (l : List TreeNode) (start : Int) (node : TreeNode) :
    node ∈ jsSpliceInsert l start node := by
  rw [jsSpliceInsert]
  exact List.mem_append_right _ (List.mem_cons_self _ _)

/-- Ids of a splice result: the spliced node's ids plus the original ids. -/
theorem idsL_jsSpliceInsert (l : List TreeNode) (start : Int) (node : TreeNode) {a : Nat}
    (ha : a ∈ idsL (jsSpliceInsert l start node)) : a ∈ idsL l ∨ a ∈ idsT node := by
  simp only [jsSpliceInsert] at ha
  generalize (if start < 0 then ((l.length : Int) + start).toNat else min start.toNat l.length) = s at ha
  rw [idsL_append, idsL_cons] at ha
  have hld : idsL (l.take s) ++ idsL (l.drop s) = idsL l := by
    rw [← idsL_append, List.take_append_drop]
  rcases List.mem_append.mp ha with ha | ha
  · exact Or.inl (hld ▸ List.mem_append_left _ ha)
  · rcases List.mem_append.mp ha with ha | ha
    · exact Or.inr ha
    · exact Or.inl (hld ▸ List.mem_append_right _ ha)

/-! ### Clone lemmas -/

/-- The clone's own identity is the allocation counter passed in. -/
theorem cloneDeepT_id (t : TreeNode) (fresh : Nat) : (cloneDeepT t fresh).1.id = fresh := by
  match t with
  | .mk j nm none => rfl
  | .mk j nm (some cs) => rfl

mutual

/-- Allocation range of a deep clone: the counter strictly grows and every id
of the copy lies in `[fresh, counter')`. -/
theorem cloneDeepT_range (t : TreeNode) (fresh : Nat) :
    fresh < (cloneDeepT t fresh).2 ∧
    ∀ a ∈ idsT (cloneDeepT t fresh).1, fresh ≤ a ∧ a < (cloneDeepT t fresh).2 := by
  match t with
  | .mk j nm none =>
    rw [cloneDeepT]
    refine ⟨Nat.lt_succ_self _, ?_⟩
    intro a ha
    simp [idsT, subnodesT, TreeNode.id] at ha
    show fresh ≤ a ∧ a < fresh + 1
    omega
  | .mk j nm (some cs) =>
    have hr := cloneDeepL_range cs (fresh + 1)
    refine ⟨by rw [cloneDeepT]; exact Nat.lt_of_lt_of_le (Nat.lt_succ_self _) hr.1, ?_⟩
    intro a ha
    rw [cloneDeepT, idsT_eq] at ha
    simp only [TreeNode.childrenList, TreeNode.id] at ha
    rcases List.mem_cons.mp ha with ha | ha
    · subst ha
      exact ⟨Nat.le_refl _, by rw [cloneDeepT]; exact Nat.lt_of_lt_of_le (Nat.lt_succ_self _) hr.1⟩
    · have := hr.2 a ha
      rw [cloneDeepT]
      omega

theorem cloneDeepL_range (l : List TreeNode) (fresh : Nat) :
    fresh ≤ (cloneDeepL l fresh).2 ∧
    ∀ a ∈ idsL (cloneDeepL l fresh).1, fresh ≤ a ∧ a < (cloneDeepL l fresh).2 := by
  match l with
  | [] =>
    refine ⟨Nat.le_refl _, ?_⟩
    intro a ha
    simp [cloneDeepL, idsL, subnodesL] at ha
  | c :: rest =>
    have hc := cloneDeepT_range c fresh
    have hrest := cloneDeepL_range rest (cloneDeepT c fresh).2
    refine ⟨by rw [cloneDeepL]; exact Nat.le_trans (Nat.le_of_lt hc.1) hrest.1, ?_⟩
    intro a ha
    rw [cloneDeepL, idsL_cons] at ha
    rcases List.mem_append.mp ha with ha | ha
    · have := hc.2 a ha
      rw [cloneDeepL]
      have := hrest.1
      omega
    · have := hrest.2 a ha
      rw [cloneDeepL]
      have := hc.1
      omega

end

mutual

/-- A deep clone is content-equal to its source. -/
theorem contentEqT_cloneDeep (t : TreeNode) (fresh : Nat) :
    contentEqT (cloneDeepT t fresh).1 t = true := by
  match t with
  | .mk j nm none =>
    rw [cloneDeepT]
    show contentEqT (.mk fresh nm none) (.mk j nm none) = true
    rw [contentEqT, contentEqO]
    simp
  | .mk j nm (some cs) =>
    rw [cloneDeepT]
    show contentEqT (.mk fresh nm (some (cloneDeepL cs (fresh + 1)).1)) (.mk j nm (some cs)) = true
    rw [contentEqT, contentEqO]
    simp [contentEqL_cloneDeep cs (fresh + 1)]

/-- List version of `contentEqT_cloneDeep`. -/
theorem contentEqL_cloneDeep (l : List TreeNode) (fresh : Nat) :
    contentEqL (cloneDeepL l fresh).1 l = true := by
  match l with
  | [] => rfl
  | c :: rest =>
    rw [cloneDeepL]
    show contentEqL ((cloneDeepT c fresh).1 :: (cloneDeepL rest (cloneDeepT c fresh).2).1)
      (c :: rest) = true
    rw [contentEqL]
    simp [contentEqT_cloneDeep c fresh, contentEqL_cloneDeep rest (cloneDeepT c fresh).2]

end

mutual

/-- Two independent deep clones of the same source are content-equal. -/
theorem contentEqT_cloneDeep_pair (t : TreeNode) (f1 f2 : Nat) :
    contentEqT (cloneDeepT t f1).1 (cloneDeepT t f2).1 = true := by
  match t with
  | .mk j nm none =>
    rw [cloneDeepT, cloneDeepT]
    show contentEqT (.mk f1 nm none) (.mk f2 nm none) = true
    rw [contentEqT, contentEqO]
    simp
  | .mk j nm (some cs) =>
    rw [cloneDeepT, cloneDeepT]
    show contentEqT (.mk f1 nm (some (cloneDeepL cs (f1 + 1)).1))
      (.mk f2 nm (some (cloneDeepL cs (f2 + 1)).1)) = true
    rw [contentEqT, contentEqO]
    simp [contentEqL_cloneDeep_pair cs (f1 + 1) (f2 + 1)]

/-- List version of `contentEqT_cloneDeep_pair`. -/
theorem contentEqL_cloneDeep_pair (l : List TreeNode) (f1 f2 : Nat) :
    contentEqL (cloneDeepL l f1).1 (cloneDeepL l f2).1 = true := by
  match l with
  | [] => rfl
  | c :: rest =>
    rw [cloneDeepL, cloneDeepL]
    show contentEqL ((cloneDeepT c f1).1 :: (cloneDeepL rest (cloneDeepT c f1).2).1)
      ((cloneDeepT c f2).1 :: (cloneDeepL rest (cloneDeepT c f2).2).1) = true
    rw [contentEqL]
    simp [contentEqT_cloneDeep_pair c f1 f2,
      contentEqL_cloneDeep_pair rest (cloneDeepT c f1).2 (cloneDeepT c f2).2]

end

/-! ### Node-map lemmas -/

theorem mapLookup_mapSet_self (i : Nat) (v : TreeFlatNode) (m : List (Nat × TreeFlatNode)) :
    mapLookup i (mapSet i v m) = some v := by
  induction m with
  | nil => simp [mapSet, mapLookup]
  | cons e rest ih =>
    match e with
    | (j, w) =>
      rw [mapSet]
      by_cases hj : j = i
      · rw [if_pos hj, mapLookup, if_pos rfl]
      · rw [if_neg hj, mapLookup, if_neg hj]
        exact ih

theorem mem_keys_mapSet {a i : Nat} {v : TreeFlatNode} {m : List (Nat × TreeFlatNode)}
    (h : a ∈ (mapSet i v m).map Prod.fst) : a = i ∨ a ∈ m.map Prod.fst := by
  induction m with
  | nil => simpa [mapSet] using h
  | cons e rest ih =>
    match e with
    | (j, w) =>
      rw [mapSet] at h
      by_cases hj : j = i
      · rw [if_pos hj] at h
        rcases List.mem_cons.mp h with h | h
        · exact Or.inl h
        · exact Or.inr (List.mem_cons_of_mem _ h)
      · rw [if_neg hj] at h
        rcases List.mem_cons.mp h with h | h
        · exact Or.inr (h ▸ List.mem_cons_self _ _)
        · rcases ih h with h | h
          · exact Or.inl h
          · exact Or.inr (List.mem_cons_of_mem _ h)

/-- `Map.set` preserves the at-most-one-entry-per-key invariant. -/
theorem mapSet_keys_nodup {i : Nat} {v : TreeFlatNode} {m : List (Nat × TreeFlatNode)}
    (h : (m.map Prod.fst).Nodup) : ((mapSet i v m).map Prod.fst).Nodup := by
  induction m with
  | nil => simp [mapSet]
  | cons e rest ih =>
    match e with
    | (j, w) =>
      rw [List.map_cons, List.nodup_cons] at h
      rw [mapSet]
      by_cases hj : j = i
      · rw [if_pos hj]
        rw [List.map_cons, List.nodup_cons]
        exact ⟨hj ▸ h.1, h.2⟩
      · rw [if_neg hj]
        rw [List.map_cons, List.nodup_cons]
        refine ⟨?_, ih h.2⟩
        intro hmem
        rcases mem_keys_mapSet hmem with hmem | hmem
        · exact hj hmem
        · exact h.1 hmem

/-! ### Expansion-state lemmas -/

theorem isExpanded_expand (s : ExpState) (x y : TreeFlatNode) :
    isExpanded (expand s x) y = if y.fid = x.fid then true else isExpanded s y := by
  rw [expand]
  by_cases hx : x.fid ∈ s.expanded
  · rw [if_pos hx]
    by_cases hy : y.fid = x.fid
    · rw [if_pos hy]
      simp [isExpanded, hy, hx]
    · rw [if_neg hy]
  · rw [if_neg hx]
    by_cases hy : y.fid = x.fid
    · rw [if_pos hy]
      simp [isExpanded, hy]
    · rw [if_neg hy]
      simp [isExpanded, List.mem_cons, hy]

theorem isExpanded_collapse {s : ExpState} (hs : s.expanded.Nodup) (x y : TreeFlatNode) :
    isExpanded (collapse s x) y = if y.fid = x.fid then false else isExpanded s y := by
  rw [collapse]
  by_cases hy : y.fid = x.fid
  · rw [if_pos hy]
    simp only [isExpanded, decide_eq_false_iff_not]
    rw [hy]
    exact hs.not_mem_erase
  · rw [if_neg hy]
    simp only [isExpanded]
    congr 1
    exact propext (List.mem_erase_of_ne hy)

theorem expand_expanded_nodup {s : ExpState} (hs : s.expanded.Nodup) (x : TreeFlatNode) :
    (expand s x).expanded.Nodup := by
  rw [expand]
  by_cases hx : x.fid ∈ s.expanded
  · rw [if_pos hx]
    exact hs
  · rw [if_neg hx]
    exact List.nodup_cons.mpr ⟨hx, hs⟩

theorem collapse_expanded_nodup {s : ExpState} (hs : s.expanded.Nodup) (x : TreeFlatNode) :
    (collapse s x).expanded.Nodup := hs.erase _

/-- The toggle loop never changes the expansion of a flat node that is not in
the processed sequence. -/
theorem toggleNodeLoop_untouched (flatNode : TreeFlatNode) (nodePath : List TreeNode) :
    ∀ (l : List TreeFlatNode) (s : ExpState) {fn : TreeFlatNode},
      fn.fid ∉ l.map TreeFlatNode.fid → s.expanded.Nodup →
      isExpanded (toggleNodeLoop flatNode nodePath l s) fn = isExpanded s fn := by
  intro l
  induction l with
  | nil =>
    intro s fn _ _
    rfl
  | cons n rest ih =>
    intro s fn h hs
    have hne : ¬ fn.fid = n.fid := fun he =>
      h (by rw [List.map_cons]; exact he ▸ List.mem_cons_self _ _)
    have hrest : fn.fid ∉ rest.map TreeFlatNode.fid := fun hm =>
      h (by rw [List.map_cons]; exact List.mem_cons_of_mem _ hm)
    rw [toggleNodeLoop]
    by_cases hcond : (n.fid == flatNode.fid || nodePath.any (fun a => a.id == n.node.id)) = true
    · rw [if_pos hcond, ih _ hrest (expand_expanded_nodup hs n), isExpanded_expand, if_neg hne]
    · rw [if_neg hcond, ih _ hrest (collapse_expanded_nodup hs n), isExpanded_collapse hs,
        if_neg hne]

/-- After the toggle loop, a flat node of the processed sequence is expanded
exactly when it is the toggled node or its tree node lies on the node path
(provided the flat nodes are distinct objects). -/
theorem toggleNodeLoop_isExpanded (flatNode : TreeFlatNode) (nodePath : List TreeNode) :
    ∀ (l : List TreeFlatNode) (s : ExpState), (l.map TreeFlatNode.fid).Nodup →
      s.expanded.Nodup → ∀ fn ∈ l,
      isExpanded (toggleNodeLoop flatNode nodePath l s) fn =
        (fn.fid == flatNode.fid || nodePath.any (fun a => a.id == fn.node.id)) := by
  intro l
  induction l with
  | nil =>
    intro s _ _ fn h
    cases h
  | cons n rest ih =>
    intro s hnd hs fn hfn
    rw [List.map_cons, List.nodup_cons] at hnd
    rw [toggleNodeLoop]
    rcases List.mem_cons.mp hfn with rfl | hfn
    · by_cases hcond : (fn.fid == flatNode.fid || nodePath.any (fun a => a.id == fn.node.id)) = true
      · rw [if_pos hcond,
          toggleNodeLoop_untouched flatNode nodePath rest _ hnd.1 (expand_expanded_nodup hs fn),
          isExpanded_expand, if_pos rfl, hcond]
      · rw [if_neg hcond,
          toggleNodeLoop_untouched flatNode nodePath rest _ hnd.1 (collapse_expanded_nodup hs fn),
          isExpanded_collapse hs, if_pos rfl]
        exact (Bool.eq_false_iff.mpr hcond).symm
    · by_cases hcond : (n.fid == flatNode.fid || nodePath.any (fun a => a.id == n.node.id)) = true
      · rw [if_pos hcond]
        exact ih _ hnd.2 (expand_expanded_nodup hs n) fn hfn
      · rw [if_neg hcond]
        exact ih _ hnd.2 (collapse_expanded_nodup hs n) fn hfn

/-! ### Concrete example structures (the test suite's `TestA → TestB → TestC`) -/

/-- The leaf `TestC` of the test tree. -/
def exC : TreeNode := .mk 2 "TestC" none

/-- `TestB`, parent of `TestC`. -/
def exB : TreeNode := .mk 1 "TestB" (some [exC])

/-- `TestA`, the root. -/
def exA : TreeNode := .mk 0 "TestA" (some [exB])

/-- The test suite's root collection. -/
def exData : List TreeNode := [exA]

/-- A node that is not part of the tree (the suite's `{name: 'TestZ'}`). -/
def exZ : TreeNode := .mk 9 "TestZ" none

/-- A fresh node to insert (the suite's `{name: 'TestD'}`). -/
def exD : TreeNode := .mk 10 "TestD" none

/-! ### Claims -/

/-- C5: under well-formedness, `getParent` returns exactly the unique node
whose children array contains the searched node by reference (the direct
structural parent of any non-root present node), and returns the `null`
sentinel both for nodes absent from the structure and for root-level
nodes. -/
theorem c5_getParent (data : List TreeNode) (n : TreeNode) (hw : wf data) :
    (∀ p, getParent data n = some p →
      p ∈ subnodesL data ∧ (∃ c ∈ p.childrenList, c.id = n.id) ∧
      ∀ q ∈ subnodesL data, (∃ c ∈ q.childrenList, c.id = n.id) → q = p) ∧
    (n ∈ subnodesL data → n ∉ data → ∃ p, getParent data n = some p ∧ n ∈ p.childrenList) ∧
    (n.id ∉ idsL data → getParent data n = none) ∧
    (n ∈ data → getParent data n = none) := by
  refine ⟨?_, ?_, ?_, ?_⟩
  · intro p hp
    rw [getParent] at hp
    have hs := getParentLoop_sound hp
    refine ⟨hs.1, hs.2, ?_⟩
    intro q hq hqp
    have hc := getParentLoop_complete hw hq hqp
    have heq := hp.symm.trans hc
    injection heq with hinj
    exact hinj.symm
  · intro hmem hnroot
    rcases Option.isSome_iff_exists.mp (idPathL_isSome (id_mem_idsL_of_mem hmem)) with ⟨p, hp⟩
    obtain ⟨⟨hd, hhd, hhdm⟩, hch, hmemp, q, tl, hdec, htl⟩ := idPathL_spec hp
    subst hdec
    have htn : tl = n := eq_of_id_eq hw (hmemp tl (by simp)) hmem htl
    subst htn
    rcases List.eq_nil_or_concat q with hq | ⟨q0, u, hq⟩
    · subst hq
      exfalso
      apply hnroot
      simp only [List.nil_append, List.head?_cons] at hhd
      injection hhd with hhd
      exact hhd ▸ hhdm
    · subst hq
      simp only [List.concat_eq_append] at hp hch
      have hstep := getParentLoop_of_idPath hw hp htl
      rw [List.getLast?_concat] at hstep
      refine ⟨u, by rw [getParent]; exact hstep, ?_⟩
      have hlink := (List.chain'_append.mp hch).2.2
      exact hlink u (by rw [List.getLast?_concat]; rfl) tl rfl
  · intro h
    exact getParentLoop_eq_none h
  · intro h
    exact getParentLoop_root hw h

/-- Witness for C5: in the concrete test tree, searching the parent of a node
that is absent from the structure yields the `null` sentinel. -/
theorem c5_getParent_witness : getParent exData exZ = none :=
  (c5_getParent exData exZ (by decide)).2.2.1 (by decide)

/-- C10: `getNodePath` on a node absent from the structure does not fail and
returns exactly the one-element path containing the node itself. -/
theorem c10_getNodePath_absent (data : List TreeNode) (n : TreeNode)
    (h : n.id ∉ idsL data) : getNodePath data n = [n] := by
  rw [getNodePath, getParent, getParentLoop_eq_none h, getNodePathStep]
  rfl

/-- Witness for C10 at the concrete test tree. -/
theorem c10_getNodePath_absent_witness : getNodePath exData exZ = [exZ] :=
  c10_getNodePath_absent exData exZ (by decide)

/-- C7: `isSibling` is exactly reference equality of the two `getParent`
results (including both being the `null` sentinel); consequently two nodes
absent from the tree are reported as siblings. -/
theorem c7_isSibling (data : List TreeNode) (a b : TreeNode) (hw : wf data) :
    (isSibling data a b = true ↔ getParent data a = getParent data b) ∧
    (a.id ∉ idsL data → b.id ∉ idsL data → isSibling data a b = true) := by
  constructor
  · constructor
    · intro h
      rw [isSibling] at h
      have h2 := eq_of_beq h
      match hpa : getParent data a, hpb : getParent data b with
      | none, none => rfl
      | some p1, some p2 =>
        rw [hpa, hpb] at h2
        simp only [Option.map_some'] at h2
        injection h2 with h2
        rw [getParent] at hpa hpb
        have hp1 := getParentLoop_sound hpa
        have hp2 := getParentLoop_sound hpb
        rw [eq_of_id_eq hw hp1.1 hp2.1 h2]
      | none, some p2 =>
        rw [hpa, hpb] at h2
        simp at h2
      | some p1, none =>
        rw [hpa, hpb] at h2
        simp at h2
    · intro h
      rw [isSibling, h]
      simp
  · intro ha hb
    rw [isSibling, getParent, getParent, getParentLoop_eq_none ha, getParentLoop_eq_none hb]
    rfl

/-- Witness for C7: two nodes absent from the concrete test tree are reported
as siblings. -/
theorem c7_isSibling_witness : isSibling exData exZ exD = true :=
  (c7_isSibling exData exZ exD (by decide)).2 (by decide) (by decide)

/-- C4: under well-formedness, `delete` removes exactly the referenced node
(with its subtree) from whichever collection directly contains it — it equals
the specification-side erase of the node's identity — and is a no-op when the
node is absent. -/
theorem c4_delete (data : List TreeNode) (n : TreeNode) (hw : wf data) :
    delete data n = eraseIdL n.id data ∧
    (n.id ∉ idsL data → delete data n = data) := by
  refine ⟨?_, ?_⟩
  · rw [delete]
    exact _delete_eq_eraseIdL hw
  · intro h
    rw [delete]
    exact _delete_of_not_mem h

/-- Witness for C4: the claim's scenario — deleting `TestC` from
`[A[B[C]]]` yields `[A[B[]]]` (and the no-op case on an absent node). -/
theorem c4_delete_witness :
    delete exData exC = [.mk 0 "TestA" (some [.mk 1 "TestB" (some [])])] ∧
    delete exData exZ = exData := by
  constructor
  · exact ((c4_delete exData exC (by decide)).1).trans (by rfl)
  · exact (c4_delete exData exZ (by decide)).2 (by decide)

/-- C6: for a node present in a well-formed tree, `getNodePath` is the
root-first ancestor path: it is non-empty, ends at the node itself, each
entry is the `getParent`-parent of its successor, and it starts at a
root-level entry whose `getParent` is the `null` sentinel. -/
theorem c6_getNodePath (data : List TreeNode) (n : TreeNode) (hw : wf data)
    (hn : n ∈ subnodesL data) :
    getNodePath data n ≠ [] ∧
    (getNodePath data n).getLast? = some n ∧
    List.Chain' (fun a b => getParent data b = some a) (getNodePath data n) ∧
    ∃ r, (getNodePath data n).head? = some r ∧ r ∈ data ∧ getParent data r = none := by
  rcases Option.isSome_iff_exists.mp (idPathL_isSome (id_mem_idsL_of_mem hn)) with ⟨p, hp⟩
  have heq := getNodePath_eq_idPathL hw hn hp
  rw [heq]
  obtain ⟨⟨hd, hhd, hhdm⟩, hch, hmem, q, tl, hdec, htl⟩ := idPathL_spec hp
  have htn : tl = n := eq_of_id_eq hw (hmem tl (by rw [hdec]; simp)) hn htl
  refine ⟨?_, ?_, ?_, ?_⟩
  · rw [hdec]
    simp
  · rw [hdec, List.getLast?_concat, htn]
  · exact idPath_parent_chain hw p.length hp (Nat.le_refl _)
  · exact ⟨hd, hhd, hhdm, getParentLoop_root hw hhdm⟩

/-- Witness for C6 at the concrete test tree: the path of `TestC` ends at
`TestC` and starts at the root `TestA` with no parent. -/
theorem c6_getNodePath_witness :
    (getNodePath exData exC).getLast? = some exC ∧
    ∃ r, (getNodePath exData exC).head? = some r ∧ r ∈ exData ∧ getParent exData r = none := by
  have h := c6_getNodePath exData exC (by decide)
    (by simp [exData, exA, exB, exC, subnodesL, subnodesT])
  exact ⟨h.2.1, h.2.2.2⟩

/-- C3: toggling a collapsed flat node expands exactly the toggled node and
the flat nodes whose tree node lies on its node path, and collapses every
other flat node of the flattened sequence; toggling an expanded flat node
just collapses it. -/
theorem c3_toggleNode (data : List TreeNode) (dataNodes : List TreeFlatNode)
    (s : ExpState) (flatNode : TreeFlatNode)
    (hfids : (dataNodes.map TreeFlatNode.fid).Nodup) (hs : s.expanded.Nodup) :
    (isExpanded s flatNode = false → ∀ fn ∈ dataNodes,
      isExpanded (toggleNode data dataNodes s flatNode) fn =
        (fn.fid == flatNode.fid ||
          (getNodePath data flatNode.node).any (fun a => a.id == fn.node.id))) ∧
    (isExpanded s flatNode = true →
      toggleNode data dataNodes s flatNode = collapse s flatNode ∧
      isExpanded (collapse s flatNode) flatNode = false) := by
  constructor
  · intro hcol fn hfn
    rw [toggleNode, if_neg (by rw [hcol]; simp)]
    exact toggleNodeLoop_isExpanded flatNode _ dataNodes s hfids hs fn hfn
  · intro hexp
    refine ⟨by rw [toggleNode, if_pos hexp], ?_⟩
    rw [isExpanded_collapse hs, if_pos rfl]

/-- The flat node projections of the test tree, as `treeControl.dataNodes`
holds them (distinct flat-node object identities). -/
def exFlatA : TreeFlatNode := ⟨100, exA, true, 0⟩

/-- Flat projection of `TestB`. -/
def exFlatB : TreeFlatNode := ⟨101, exB, true, 1⟩

/-- Flat projection of `TestC`. -/
def exFlatC : TreeFlatNode := ⟨102, exC, false, 2⟩

/-- The flattened node sequence of the test tree. -/
def exFlats : List TreeFlatNode := [exFlatA, exFlatB, exFlatC]

/-- The expansion state after toggling the collapsed `TestC` flat node. -/
def exToggled : ExpState := toggleNode exData exFlats ⟨[]⟩ exFlatC

/-- Witness for C3: the claim's scenario — toggling `C` expands `C`, `B`,
`A`; toggling it again collapses `C` but leaves `B` and `A` expanded. -/
theorem c3_toggleNode_witness :
    (isExpanded exToggled exFlatC = true ∧ isExpanded exToggled exFlatB = true ∧
      isExpanded exToggled exFlatA = true) ∧
    (toggleNode exData exFlats exToggled exFlatC = collapse exToggled exFlatC ∧
      isExpanded (collapse exToggled exFlatC) exFlatC = false) ∧
    isExpanded (collapse exToggled exFlatC) exFlatB = true ∧
    isExpanded (collapse exToggled exFlatC) exFlatA = true := by
  refine ⟨by decide, ?_, by decide, by decide⟩
  exact (c3_toggleNode exData exFlats exToggled exFlatC (by decide) (by decide)).2 (by decide)

/-- C8: the node-to-flat-node map holds at most one projection per tree-node
reference and every `transformer` call preserves this; the first call on a
node creates and stores its projection, and every later call returns the
stored projection object (identity preserved) with `level` set to the
argument and `expandable` recomputed from the current children array. -/
theorem c8_transformer (nodeMap : List (Nat × TreeFlatNode)) (ffresh : Nat)
    (node : TreeNode) (level : Nat) :
    ((nodeMap.map Prod.fst).Nodup →
      (((transformer nodeMap ffresh node level).2.1).map Prod.fst).Nodup) ∧
    (mapLookup node.id nodeMap = none →
      (transformer nodeMap ffresh node level).1 = ⟨ffresh, node, isExpandableNode node, level⟩ ∧
      mapLookup node.id (transformer nodeMap ffresh node level).2.1 =
        some ⟨ffresh, node, isExpandableNode node, level⟩) ∧
    (∀ ex, mapLookup node.id nodeMap = some ex →
      (transformer nodeMap ffresh node level).1 =
        { ex with level := level, expandable := isExpandableNode node } ∧
      (transformer nodeMap ffresh node level).1.fid = ex.fid ∧
      mapLookup node.id (transformer nodeMap ffresh node level).2.1 =
        some ((transformer nodeMap ffresh node level).1)) := by
  refine ⟨?_, ?_, ?_⟩
  · intro h
    rw [transformer]
    match hl : mapLookup node.id nodeMap with
    | some ex => exact mapSet_keys_nodup h
    | none => exact mapSet_keys_nodup h
  · intro h
    rw [transformer, h]
    exact ⟨rfl, mapLookup_mapSet_self _ _ _⟩
  · intro ex h
    rw [transformer, h]
    exact ⟨rfl, rfl, mapLookup_mapSet_self _ _ _⟩

/-- Witness for C8: creating and then updating the projection of `TestC`
(the update keeps the stored flat node's identity `7`). -/
theorem c8_transformer_witness :
    ((transformer [] 0 exC 5).1 = ⟨0, exC, false, 5⟩ ∧
      mapLookup exC.id (transformer [] 0 exC 5).2.1 = some ⟨0, exC, false, 5⟩) ∧
    (transformer [(exC.id, ⟨7, exC, true, 9⟩)] 8 exC 3).1 = ⟨7, exC, false, 3⟩ ∧
    (transformer [(exC.id, ⟨7, exC, true, 9⟩)] 8 exC 3).1.fid = 7 :=
  ⟨(c8_transformer [] 0 exC 5).2.1 rfl,
   ((c8_transformer [(exC.id, ⟨7, exC, true, 9⟩)] 8 exC 3).2.2 ⟨7, exC, true, 9⟩ rfl).1,
   ((c8_transformer [(exC.id, ⟨7, exC, true, 9⟩)] 8 exC 3).2.2 ⟨7, exC, true, 9⟩ rfl).2.1⟩

/-- C9: a deep clone is content-equal to its original but not
reference-equal, shares no object identity with the original subtree, and
any mutation primitive aimed at the clone or one of its descendants (a
children update or a delete by reference) leaves the original node and its
whole subtree unchanged; all three clone operations return such a clone.
The hypothesis states the allocation invariant: the counter is fresh with
respect to the original's identities. -/
theorem c9_clone_deep (originalNode : TreeNode) (fresh : Nat)
    (hb : ∀ a ∈ idsT originalNode, a < fresh) :
    contentEqT (cloneDeepT originalNode fresh).1 originalNode = true ∧
    (cloneDeepT originalNode fresh).1.id ≠ originalNode.id ∧
    (∀ a ∈ idsT (cloneDeepT originalNode fresh).1, a ∉ idsT originalNode) ∧
    (∀ a ∈ idsT (cloneDeepT originalNode fresh).1, ∀ f,
      updateChildrenT a f originalNode = originalNode) ∧
    (∀ a ∈ idsT (cloneDeepT originalNode fresh).1, _delete [originalNode] a = [originalNode]) ∧
    (∀ data parentNode, (cloneAsChild data fresh originalNode parentNode).1 =
      (cloneDeepT originalNode fresh).1) ∧
    (∀ data siblingNode, (cloneAsSiblingBefore data fresh originalNode siblingNode).1 =
      (cloneDeepT originalNode fresh).1) ∧
    (∀ data siblingNode, (cloneAsSiblingAfter data fresh originalNode siblingNode).1 =
      (cloneDeepT originalNode fresh).1) := by
  have hrange := (cloneDeepT_range originalNode fresh).2
  have hdisj : ∀ a ∈ idsT (cloneDeepT originalNode fresh).1, a ∉ idsT originalNode :=
    fun a ha hmem => absurd (hb a hmem) (Nat.not_lt.mpr (hrange a ha).1)
  refine ⟨contentEqT_cloneDeep _ _, ?_, hdisj, ?_, ?_,
    fun _ _ => rfl, fun _ _ => rfl, fun _ _ => rfl⟩
  · rw [cloneDeepT_id]
    intro he
    have := hb _ (id_mem_idsT_self originalNode)
    omega
  · intro a ha f
    exact updateChildrenT_of_not_mem (hdisj a ha)
  · intro a ha
    refine _delete_of_not_mem ?_
    rw [idsL_cons]
    intro hmem
    rcases List.mem_append.mp hmem with hmem | hmem
    · exact hdisj a ha hmem
    · simp [idsL, subnodesL] at hmem

/-- Witness for C9: cloning the subtree `TestB → TestC` with counter 10. -/
theorem c9_clone_deep_witness :
    contentEqT (cloneDeepT exB 10).1 exB = true ∧ (cloneDeepT exB 10).1.id ≠ exB.id :=
  ⟨(c9_clone_deep exB 10 (by decide)).1, (c9_clone_deep exB 10 (by decide)).2.1⟩

/-- `_insertSibling` always inserts the given node somewhere in the
structure (parent's children when the sibling is found, root collection
otherwise). -/
theorem mem_insertSibling (data : List TreeNode) (siblingNode node : TreeNode) (index : Nat) :
    node ∈ subnodesL (_insertSibling data siblingNode node index) := by
  match hp : getParent data siblingNode with
  | some parentNode =>
    match hc : parentNode.children with
    | some cs0 =>
      simp only [_insertSibling, hp, hc]
      rw [getParent] at hp
      have hsound := getParentLoop_sound hp
      refine mem_updateChildrenL (id_mem_idsL_of_mem hsound.1) ?_
      intro cs
      exact mem_jsSpliceInsert cs _ node
    | none =>
      simp only [_insertSibling, hp, hc]
      exact mem_subnodesL_of_mem (mem_jsSpliceInsert data _ node)
  | none =>
    simp only [_insertSibling, hp]
    exact mem_subnodesL_of_mem (mem_jsSpliceInsert data _ node)

/-- C1 (amended): `cloneAsSiblingBefore` and `cloneAsSiblingAfter` insert the
returned clone itself, so the returned node is in the resulting tree;
`cloneAsChild` instead inserts a second, separately allocated deep copy —
content-equal to the returned clone but not reference-equal — and the
returned clone itself is not part of the resulting tree. -/
theorem c1_clone_insert (data : List TreeNode) (fresh : Nat)
    (originalNode siblingNode parentNode : TreeNode)
    (hb : ∀ a ∈ idsL data, a < fresh) (hp : parentNode.id ∈ idsL data) :
    (cloneAsSiblingBefore data fresh originalNode siblingNode).1 ∈
      subnodesL (cloneAsSiblingBefore data fresh originalNode siblingNode).2.1 ∧
    (cloneAsSiblingAfter data fresh originalNode siblingNode).1 ∈
      subnodesL (cloneAsSiblingAfter data fresh originalNode siblingNode).2.1 ∧
    contentEqT (cloneAsChild data fresh originalNode parentNode).1
      (cloneDeepT originalNode (cloneDeepT originalNode fresh).2).1 = true ∧
    (cloneAsChild data fresh originalNode parentNode).1.id ≠
      (cloneDeepT originalNode (cloneDeepT originalNode fresh).2).1.id ∧
    (cloneDeepT originalNode (cloneDeepT originalNode fresh).2).1 ∈
      subnodesL (cloneAsChild data fresh originalNode parentNode).2.1 ∧
    (cloneAsChild data fresh originalNode parentNode).1.id ∉
      idsL (cloneAsChild data fresh originalNode parentNode).2.1 := by
  refine ⟨mem_insertSibling data siblingNode ((cloneDeepT originalNode fresh).1) 0,
    mem_insertSibling data siblingNode ((cloneDeepT originalNode fresh).1) 1,
    contentEqT_cloneDeep_pair originalNode fresh _, ?_, ?_, ?_⟩
  · show (cloneDeepT originalNode fresh).1.id ≠
      (cloneDeepT originalNode (cloneDeepT originalNode fresh).2).1.id
    rw [cloneDeepT_id, cloneDeepT_id]
    have := (cloneDeepT_range originalNode fresh).1
    omega
  · show (cloneDeepT originalNode (cloneDeepT originalNode fresh).2).1 ∈
      subnodesL (insertChild data parentNode
        (cloneDeepT originalNode (cloneDeepT originalNode fresh).2).1)
    rw [insertChild]
    refine mem_updateChildrenL hp ?_
    intro cs
    exact List.mem_append_right _ (List.mem_cons_self _ _)
  · show (cloneDeepT originalNode fresh).1.id ∉ idsL (insertChild data parentNode
      (cloneDeepT originalNode (cloneDeepT originalNode fresh).2).1)
    rw [cloneDeepT_id, insertChild]
    refine not_mem_idsL_updateChildrenL ?_ ?_
    · intro hmem
      have := hb _ hmem
      omega
    · intro cs hcs hmem
      rw [idsL_append, idsL_cons] at hmem
      rcases List.mem_append.mp hmem with hmem | hmem
      · exact hcs hmem
      · rcases List.mem_append.mp hmem with hmem | hmem
        · have h1 := ((cloneDeepT_range originalNode (cloneDeepT originalNode fresh).2).2) _ hmem
          have h2 := (cloneDeepT_range originalNode fresh).1
          omega
        · simp [idsL, subnodesL] at hmem

/-- C1 counterexample: as stated the claim fails for `cloneAsChild` — at
this input the returned clone carries identity 20 while the copy actually
inserted into the tree carries identity 21, so the returned node is not
reference-equal to the inserted node and in fact occurs nowhere in the
resulting tree. -/
theorem c1_clone_insert_counterexample :
    (cloneAsChild exData 20 exC exB).1.id = 20 ∧
    idsL (cloneAsChild exData 20 exC exB).2.1 = [0, 1, 2, 21] ∧
    (cloneAsChild exData 20 exC exB).1.id ∉ idsL (cloneAsChild exData 20 exC exB).2.1 := by
  refine ⟨rfl, rfl, ?_⟩
  decide

/-- Witness for C1's amended theorem at the concrete test tree. -/
theorem c1_clone_insert_witness :
    (cloneAsSiblingBefore exData 20 exC exC).1 ∈
      subnodesL (cloneAsSiblingBefore exData 20 exC exC).2.1 ∧
    (cloneAsSiblingAfter exData 20 exC exC).1 ∈
      subnodesL (cloneAsSiblingAfter exData 20 exC exC).2.1 :=
  ⟨(c1_clone_insert exData 20 exC exC exB (by decide) (by decide)).1,
   (c1_clone_insert exData 20 exC exC exB (by decide) (by decide)).2.1⟩

/-- `indexOf` misses (yields `-1`) when no element carries the id. -/
theorem jsIndexOf_eq_neg_one {l : List TreeNode} {i : Nat}
    (h : ∀ c ∈ l, c.id ≠ i) : jsIndexOf l i = -1 := by
  have hf : l.findIdx? (fun c => c.id == i) = none := by
    rw [List.findIdx?_eq_none_iff]
    intro c hc
    simpa using h c hc
  rw [jsIndexOf, hf]

/-- `splice(-1, 0, x)` inserts `x` just before the last element (at the
front of an empty array). -/
theorem jsSpliceInsert_neg_one (l : List TreeNode) (x : TreeNode) :
    jsSpliceInsert l (-1) x = l.take (l.length - 1) ++ x :: l.drop (l.length - 1) := by
  rw [jsSpliceInsert]
  have hc : ((-1 : Int) < 0) = True := by simp
  have ht : ((l.length : Int) + (-1)).toNat = l.length - 1 := by omega
  simp only [hc, if_true, ht]

/-- `splice(0, 0, x)` prepends `x`. -/
theorem jsSpliceInsert_zero (l : List TreeNode) (x : TreeNode) :
    jsSpliceInsert l 0 x = x :: l := by
  rw [jsSpliceInsert]
  simp

/-- C2 counterexample: with the reference node (id 9) absent from the
single-root tree `[TestA[TestB[TestC]]]`, both `insertBefore` and
`insertAfter` still change the root collection — they are not no-ops. -/
theorem c2_insert_absent_counterexample :
    insertBefore exData exZ exD ≠ exData ∧ insertAfter exData exZ exD ≠ exData := by
  have h1 : insertBefore exData exZ exD = [exD, exA] := rfl
  have h2 : insertAfter exData exZ exD = [exD, exA] := rfl
  constructor
  · rw [h1]
    intro h
    have := congrArg List.length h
    simp [exData] at this
  · rw [h2]
    intro h
    have := congrArg List.length h
    simp [exData] at this

/-- C2 (amended): when `siblingRef` is absent from the whole structure no
children array changes, but the root collection does change — the splice
start degrades to `-1` resp. `-1 + 1`, so `insertBefore` inserts the new
node just before the last root element (at the front when the root
collection is empty) and `insertAfter` inserts it at the very front. -/
theorem c2_insert_absent (data : List TreeNode) (siblingNode node : TreeNode)
    (h : siblingNode.id ∉ idsL data) :
    insertBefore data siblingNode node =
      data.take (data.length - 1) ++ node :: data.drop (data.length - 1) ∧
    insertAfter data siblingNode node = node :: data := by
  have hparent : getParent data siblingNode = none := getParentLoop_eq_none h
  have hidx : jsIndexOf data siblingNode.id = -1 :=
    jsIndexOf_eq_neg_one (fun c hc he =>
      h (he ▸ id_mem_idsL_of_mem (mem_subnodesL_of_mem hc)))
  constructor
  · rw [insertBefore]
    simp only [_insertSibling, hparent, hidx]
    have : (-1 + ((0 : Nat) : Int)) = -1 := by norm_num
    rw [this, jsSpliceInsert_neg_one]
  · rw [insertAfter]
    simp only [_insertSibling, hparent, hidx]
    have : (-1 + ((1 : Nat) : Int)) = 0 := by norm_num
    rw [this, jsSpliceInsert_zero]

/-- Witness for C2's amended theorem: inserting relative to the absent
`TestZ` in the one-root test tree prepends for `insertAfter` and inserts
before the (only) root for `insertBefore`. -/
theorem c2_insert_absent_witness :
    insertBefore exData exZ exD =
      exData.take (exData.length - 1) ++ exD :: exData.drop (exData.length - 1) ∧
    insertAfter exData exZ exD = exD :: exData :=
  ⟨(c2_insert_absent exData exZ exD (by decide)).1,
   (c2_insert_absent exData exZ exD (by decide)).2⟩
